import Mathlib

/-!
# CoreGraphics image reader: a shallow embedding

Embedding of `src/coregraphics.imageio/coregraphics.cpp`.

* `CoreGraphicsInput` is the reader object: its three owned native references
  (`m_source`, `m_image`, `m_data`), the page cursor `m_subimage`, the cached
  `m_spec`, and a log of the calls it makes to its collaborators.
* Native objects are values: a container is the list of its pages, a page is
  the record of what the CoreGraphics getters report for it.
* `int` is a 32-bit two's complement integer, `size_t` is 64 bits wide.
-/

namespace CoreGraphics

/-! ## Machine integers -/

/-- Number of values of a `size_t`. -/
def SIZE_MOD : Nat := 2 ^ 64

/-- Value of an `int` expression: reduction to the 32-bit two's complement range. -/
def toInt32 (x : Int) : Int := (x + 2 ^ 31) % 2 ^ 32 - 2 ^ 31

/-- Conversion of an `int` to `size_t`. -/
def toSize (x : Int) : Nat := (x % (SIZE_MOD : Int)).toNat

/-! ## Host image descriptor -/

/-- Sample types of the host library that the reader assigns. -/
inductive TypeDesc where
  | UNKNOWN
  | UINT8
  | UINT16
  | HALF
  | UINT32
  | FLOAT
deriving DecidableEq, Repr

/-- Channel names of a descriptor: not yet assigned, or the host defaults for a channel count. -/
inductive ChannelNames where
  | unset
  | defaults (nchannels : Int)
deriving DecidableEq, Repr

/-- Modelled from the spec: the host descriptor type `ImageSpec` (declared in
`OpenImageIO/imageio.h`, which is not part of the sources): width, height,
sample type, channel count, alpha-channel index (`-1` for none), default
channel names and free-form integer attributes. -/
structure ImageSpec where
  width : Int
  height : Int
  format : TypeDesc
  nchannels : Int
  alpha_channel : Int
  channelnames : ChannelNames
  extra_attribs : List (String × Int)
deriving DecidableEq, Repr

namespace ImageSpec

/-- Modelled from the spec: the descriptor a default-constructed `ImageSpec` holds. -/
def empty : ImageSpec :=
  { width := 0, height := 0, format := TypeDesc.UNKNOWN, nchannels := 0,
    alpha_channel := -1, channelnames := ChannelNames.unset, extra_attribs := [] }

/-- Modelled from the spec: the constructor call `ImageSpec(w, h, TypeDesc::UNKNOWN)`,
a fresh descriptor of the given size (the `size_t` arguments are narrowed to `int`). -/
def ctor (xres yres : Nat) : ImageSpec :=
  { empty with width := toInt32 xres, height := toInt32 yres }

/-- Modelled from the spec: `ImageSpec::set_format`, which stores the sample type. -/
def set_format (s : ImageSpec) (fmt : TypeDesc) : ImageSpec :=
  { s with format := fmt }

/-- Modelled from the spec: `ImageSpec::default_channel_names`, which fills in the
default channel names for the current channel count. -/
def default_channel_names (s : ImageSpec) : ImageSpec :=
  { s with channelnames := ChannelNames.defaults s.nchannels }

/-- Modelled from the spec: `ImageSpec::attribute(name, int)`, which binds the
attribute `name` to `value`, replacing an earlier binding of that name. -/
def attrib (s : ImageSpec) (name : String) (value : Int) : ImageSpec :=
  { s with extra_attribs := (s.extra_attribs.filter (fun kv => kv.1 ≠ name)) ++ [(name, value)] }

/-- Whether the descriptor binds attribute `name` to `value`. -/
def hasAttribute (s : ImageSpec) (name : String) (value : Int) : Prop :=
  (name, value) ∈ s.extra_attribs

end ImageSpec

/-! ## Native objects -/

/-- Alpha arrangements reported by `CGImageGetAlphaInfo`. -/
inductive CGImageAlphaInfo where
  | kCGImageAlphaNone
  | kCGImageAlphaPremultipliedLast
  | kCGImageAlphaPremultipliedFirst
  | kCGImageAlphaLast
  | kCGImageAlphaFirst
  | kCGImageAlphaNoneSkipLast
  | kCGImageAlphaNoneSkipFirst
  | kCGImageAlphaOnly
deriving DecidableEq, Repr

/-- The bit of a `CGBitmapInfo` that flags floating-point components (`1 << 8`). -/
def kCGBitmapFloatComponents : Nat := 256

/-- A decoded page: what the CoreGraphics getters report for it, and the bytes
`CGDataProviderCopyData` yields for its data provider (`none` when that call
returns `NULL`). -/
structure CGImage where
  width : Nat
  height : Nat
  bitsPerComponent : Nat
  bitmapInfo : Nat
  alphaInfo : CGImageAlphaInfo
  bytesPerRow : Nat
  data : Option (List Nat)
deriving DecidableEq, Repr

/-- A container: the result of decoding each of its pages (`none` when
`CGImageSourceCreateImageAtIndex` returns `NULL` for that index) and the
`LoopCount` entry of its property dictionary, if any. -/
structure CGImageSource where
  pages : List (Option CGImage)
  loopCount : Option Int
deriving DecidableEq, Repr

/-- `CGImageSourceGetCount`; a `NULL` container has no pages. -/
def CGImageSourceGetCount (src : Option CGImageSource) : Nat :=
  match src with
  | some s => s.pages.length
  | none => 0

/-- `CGImageSourceCreateImageAtIndex`. -/
def CGImageSourceCreateImageAtIndex (src : Option CGImageSource) (index : Nat) : Option CGImage :=
  match src with
  | some s => (s.pages.get? index).join
  | none => none

/-- `CGImageGetWidth`; `0` for a `NULL` image. -/
def CGImageGetWidth (img : Option CGImage) : Nat := (img.map CGImage.width).getD 0

/-- `CGImageGetHeight`; `0` for a `NULL` image. -/
def CGImageGetHeight (img : Option CGImage) : Nat := (img.map CGImage.height).getD 0

/-- `CGImageGetBitsPerComponent`; `0` for a `NULL` image. -/
def CGImageGetBitsPerComponent (img : Option CGImage) : Nat :=
  (img.map CGImage.bitsPerComponent).getD 0

/-- `CGImageGetBitmapInfo`; `0` for a `NULL` image. -/
def CGImageGetBitmapInfo (img : Option CGImage) : Nat := (img.map CGImage.bitmapInfo).getD 0

/-- `CGImageGetAlphaInfo`; `kCGImageAlphaNone` for a `NULL` image. -/
def CGImageGetAlphaInfo (img : Option CGImage) : CGImageAlphaInfo :=
  (img.map CGImage.alphaInfo).getD CGImageAlphaInfo.kCGImageAlphaNone

/-- `CGImageGetBytesPerRow`; `0` for a `NULL` image. -/
def CGImageGetBytesPerRow (img : Option CGImage) : Nat := (img.map CGImage.bytesPerRow).getD 0

/-- `CGDataProviderCopyData(CGImageGetDataProvider(img))`; `NULL` for a `NULL` image. -/
def CGDataProviderCopyData (img : Option CGImage) : Option (List Nat) := img.bind CGImage.data

/-- The `LoopCount` lookup `props.get<int>("LoopCount")` with its default `0`. -/
def loopCountOf (src : Option CGImageSource) : Int :=
  toInt32 ((src.bind CGImageSource.loopCount).getD 0)

/-- The file system as the reader sees it: whether
`CFURLCreateFromFileSystemRepresentation` yields a URL for a name, and the
container `CGImageSourceCreateWithURL` yields (`none` for `NULL`). -/
structure Files where
  url : String → Bool
  source : String → Option CGImageSource

/-! ## The reader object -/

/-- The three kinds of native reference the reader owns. -/
inductive RefKind where
  | data
  | image
  | source
deriving DecidableEq, Repr

/-- Calls the reader makes to its collaborators that create or release an
object or report an error. -/
inductive Call where
  | CFRelease (kind : RefKind)
  | createImageAtIndex (index : Nat)
  | copyData
  | createWithURL (name : String)
  | error (msg : String) (a b : Nat)
deriving DecidableEq, Repr

/-- State of a `CoreGraphicsInput` (with the `m_spec` it inherits) and the log of its calls. -/
structure CoreGraphicsInput where
  m_source : Option CGImageSource
  m_image : Option CGImage
  m_data : Option (List Nat)
  m_subimage : Int
  m_spec : ImageSpec
  log : List Call
deriving DecidableEq, Repr

namespace CoreGraphicsInput

/-- The constructor `CoreGraphicsInput () : m_subimage(0)`. -/
def new : CoreGraphicsInput :=
  { m_source := none, m_image := none, m_data := none, m_subimage := 0,
    m_spec := ImageSpec.empty, log := [] }

/-- The release step of `CFObject::reset`: `if (m_ref) CFRelease(m_ref)`. -/
def releaseIf (held : Bool) (kind : RefKind) (log : List Call) : List Call :=
  if held then log ++ [Call.CFRelease kind] else log

/-- `m_data.reset(ref)`. -/
def reset_data (self : CoreGraphicsInput) (ref : Option (List Nat)) : CoreGraphicsInput :=
  { self with log := releaseIf self.m_data.isSome RefKind.data self.log, m_data := ref }

/-- `m_image.reset(ref)`. -/
def reset_image (self : CoreGraphicsInput) (ref : Option CGImage) : CoreGraphicsInput :=
  { self with log := releaseIf self.m_image.isSome RefKind.image self.log, m_image := ref }

/-- `m_source.reset(ref)`. -/
def reset_source (self : CoreGraphicsInput) (ref : Option CGImageSource) : CoreGraphicsInput :=
  { self with log := releaseIf self.m_source.isSome RefKind.source self.log, m_source := ref }

/-- `close`: reset buffer, page and container; always returns `true`. -/
def close (self : CoreGraphicsInput) : Bool × CoreGraphicsInput :=
  (true, ((self.reset_data none).reset_image none).reset_source none)

/-- `current_subimage`. -/
def current_subimage (self : CoreGraphicsInput) : Int := self.m_subimage

/-- `valid_file`: on a URL, close the reader, then hold the container created for it. -/
def valid_file (fs : Files) (self : CoreGraphicsInput) (filename : String) :
    Bool × CoreGraphicsInput :=
  if fs.url filename then
    let self := (self.close).2
    let self := { self with log := self.log ++ [Call.createWithURL filename] }
    let self := self.reset_source (fs.source filename)
    (self.m_source.isSome, self)
  else
    (false, self)

/-- The first `switch` of `seek_subimage`: the sample type for a bit depth and
bitmap info, `none` for the `default:` case. -/
def sampleFormat (bits info : Nat) : Option TypeDesc :=
  if bits = 8 then some TypeDesc.UINT8
  else if bits = 16 then
    some (if info &&& kCGBitmapFloatComponents ≠ 0 then TypeDesc.HALF else TypeDesc.UINT16)
  else if bits = 32 then
    some (if info &&& kCGBitmapFloatComponents ≠ 0 then TypeDesc.FLOAT else TypeDesc.UINT32)
  else none

/-- The statement `newspec.nchannels = 4` and the second `switch` of
`seek_subimage` (`kCGImageAlphaNone` falls through to the two skip cases). -/
def alphaLayout (alpha : CGImageAlphaInfo) (newspec : ImageSpec) : ImageSpec :=
  let newspec := { newspec with nchannels := 4 }
  match alpha with
  | CGImageAlphaInfo.kCGImageAlphaNone =>
      { { newspec with nchannels := 3 } with alpha_channel := -1 }
  | CGImageAlphaInfo.kCGImageAlphaNoneSkipLast => { newspec with alpha_channel := -1 }
  | CGImageAlphaInfo.kCGImageAlphaNoneSkipFirst => { newspec with alpha_channel := -1 }
  | CGImageAlphaInfo.kCGImageAlphaLast => { newspec with alpha_channel := 4 }
  | CGImageAlphaInfo.kCGImageAlphaPremultipliedLast => { newspec with alpha_channel := 4 }
  | CGImageAlphaInfo.kCGImageAlphaFirst => { newspec with alpha_channel := 0 }
  | CGImageAlphaInfo.kCGImageAlphaPremultipliedFirst => { newspec with alpha_channel := 0 }
  | CGImageAlphaInfo.kCGImageAlphaOnly =>
      { { newspec with nchannels := 1 } with alpha_channel := 0 }

/-- The two attribute statements of `seek_subimage`: `gif:LoopCount` for a
non-zero loop count, `oiio:Movie` for a container of more than one page. -/
def sourceAttributes (src : Option CGImageSource) (newspec : ImageSpec) : ImageSpec :=
  let newspec :=
    if loopCountOf src ≠ 0 then newspec.attrib "gif:LoopCount" (loopCountOf src) else newspec
  if CGImageSourceGetCount src > 1 then newspec.attrib "oiio:Movie" 1 else newspec

/-- What a call of `seek_subimage` leaves: its return value, the caller's
`newspec` and the reader. -/
structure SeekResult where
  ok : Bool
  newspec : ImageSpec
  self : CoreGraphicsInput
deriving DecidableEq, Repr

/-- The backward-seek block of `seek_subimage`: drop buffer and page when the
requested page lies before the current one. -/
def invalidateIfBefore (self : CoreGraphicsInput) (subimage : Int) : CoreGraphicsInput :=
  if self.m_subimage > subimage then (self.reset_data none).reset_image none else self

/-- The statement `m_image = CGImageSourceCreateImageAtIndex (m_source, subimage, NULL)`. -/
def decodePage (self : CoreGraphicsInput) (index : Nat) : CoreGraphicsInput :=
  let image := CGImageSourceCreateImageAtIndex self.m_source index
  ({ self with log := self.log ++ [Call.createImageAtIndex index] }).reset_image image

/-- The derivation of `newspec` in `seek_subimage`, from the construction of
the descriptor to the attributes: whether the sample-type `switch` passed, and
the value `newspec` then holds. -/
def deriveSpec (source : Option CGImageSource) (image : Option CGImage) : Bool × ImageSpec :=
  let newspec := ImageSpec.ctor (CGImageGetWidth image) (CGImageGetHeight image)
  let info := CGImageGetBitmapInfo image
  match sampleFormat (CGImageGetBitsPerComponent image) info with
  | none => (false, newspec)
  | some fmt =>
    let newspec := newspec.set_format fmt
    let newspec := alphaLayout (CGImageGetAlphaInfo image) newspec
    let newspec := newspec.default_channel_names
    let newspec := sourceAttributes source newspec
    (true, newspec)

/-- `seek_subimage (subimage, miplevel, newspec)`. Past the first guard
`subimage` is not negative, so its conversion to `size_t` keeps its value. -/
def seek_subimage (self : CoreGraphicsInput) (subimage miplevel : Int) (newspec : ImageSpec) :
    SeekResult :=
  if subimage < 0 ∨ miplevel ≠ 0 then
    { ok := false, newspec := newspec, self := self }
  else if self.m_subimage = subimage then
    { ok := true, newspec := self.m_spec, self := self }
  else
    let self := self.invalidateIfBefore subimage
    if subimage.toNat ≥ CGImageSourceGetCount self.m_source then
      { ok := false, newspec := newspec, self := self }
    else
      let self := self.decodePage subimage.toNat
      let derived := deriveSpec self.m_source self.m_image
      if derived.1 then
        { ok := true, newspec := derived.2,
          self := { self with m_spec := derived.2, m_subimage := subimage } }
      else
        { ok := false, newspec := derived.2, self := self }

/-- `open`: probe the file, set the cursor to `-1`, seek page 0. -/
def open_ (fs : Files) (self : CoreGraphicsInput) (name : String) (spec : ImageSpec) :
    SeekResult :=
  let r := self.valid_file fs name
  if !r.1 then
    { ok := false, newspec := spec, self := r.2 }
  else
    seek_subimage { r.2 with m_subimage := -1 } 0 0 spec

/-- What a call of `read_native_scanlines` does to the caller's buffer. -/
inductive ReadOutcome where
  /-- The `assert` failed: the process is aborted. -/
  | aborted
  /-- The call returned `false`; nothing was written. -/
  | failed
  /-- The call returned `true`; `CFDataGetBytes` wrote these bytes. -/
  | copied (bytes : List Nat)
  /-- The call returned `true` after handing `CFDataGetBytes` a range that
  reaches past the end of the buffer. -/
  | overrun (start len : Nat)
deriving DecidableEq, Repr

/-- `CFDataGetBytes (data, CFRangeMake (start, len), out)`. -/
def CFDataGetBytes (data : List Nat) (start len : Nat) : ReadOutcome :=
  if start + len ≤ data.length then ReadOutcome.copied ((data.drop start).take len)
  else ReadOutcome.overrun start len

/-- The right-hand side of the `assert` of `read_native_scanlines`:
`m_spec.width * m_spec.nchannels * CGImageGetBitsPerComponent(m_image)/8`. -/
def expectedRowbytes (self : CoreGraphicsInput) : Nat :=
  (toSize (toInt32 (self.m_spec.width * self.m_spec.nchannels))
    * CGImageGetBitsPerComponent self.m_image % SIZE_MOD) / 8

/-- The first block of `read_native_scanlines`: unless a buffer is held, copy
the data of the page into `m_data`. -/
def fetchData (self : CoreGraphicsInput) : CoreGraphicsInput :=
  if self.m_data.isNone then
    ({ self with log := self.log ++ [Call.copyData] }).reset_data
      (CGDataProviderCopyData self.m_image)
  else self

/-- `read_native_scanlines (ybegin, yend, z, data)`; `ndebug` tells whether
`assert` is compiled out. -/
def read_native_scanlines (ndebug : Bool) (self : CoreGraphicsInput) (ybegin yend _z : Int) :
    ReadOutcome × CoreGraphicsInput :=
  let self := self.fetchData
  match self.m_data with
  | none => (ReadOutcome.failed, self)
  | some data =>
    let rowbytes := CGImageGetBytesPerRow self.m_image
    if !ndebug ∧ rowbytes ≠ expectedRowbytes self then
      (ReadOutcome.aborted, self)
    else
      let imgLen := data.length
      let start := toSize ybegin * rowbytes % SIZE_MOD
      if start > imgLen then
        (ReadOutcome.failed,
          { self with log := self.log ++
              [Call.error "Requested data out of range: %lu : %lu\n" start imgLen] })
      else
        let end_ := toSize (toInt32 (yend - ybegin)) * rowbytes % SIZE_MOD
        if end_ > imgLen then
          (ReadOutcome.failed,
            { self with log := self.log ++
                [Call.error "Requested more data than available: %lu : %lu\n" end_ imgLen] })
        else
          (CFDataGetBytes data start end_, self)

/-- `read_native_scanline (y, z, data)`. -/
def read_native_scanline (ndebug : Bool) (self : CoreGraphicsInput) (y z : Int) :
    ReadOutcome × CoreGraphicsInput :=
  read_native_scanlines ndebug self y (toInt32 (y + 1)) z

end CoreGraphicsInput

/-! ## A two-page container -/

/-- Page 0 of the example: 4x4, 8 bits, no alpha, rows of 12 bytes. -/
def page0 : CGImage :=
  { width := 4, height := 4, bitsPerComponent := 8, bitmapInfo := 0,
    alphaInfo := CGImageAlphaInfo.kCGImageAlphaNone, bytesPerRow := 12,
    data := some (List.range 48) }

/-- Page 1 of the example: 2x2, 16-bit float, alpha last, rows of 16 bytes. -/
def page1 : CGImage :=
  { width := 2, height := 2, bitsPerComponent := 16, bitmapInfo := 256,
    alphaInfo := CGImageAlphaInfo.kCGImageAlphaLast, bytesPerRow := 16,
    data := some ((List.range 32).map (fun b => b + 100)) }

/-- The two-page example container. -/
def twoPages : CGImageSource := { pages := [some page0, some page1], loopCount := none }

/-- A file system holding the example container under the name `a`. -/
def exampleFiles : Files :=
  { url := fun _ => true, source := fun n => if n = "a" then some twoPages else none }

/-! ## Type identifiers and their extensions -/

/-- The character that terminates a C string. -/
def NUL : Char := Char.ofNat 0

/-- The character array of a string literal: its characters and the terminator
the compiler appends. A `const char*` is modelled by the characters from the
pointer to the end of its array. -/
def literal (s : String) : List Char := s.toList ++ [NUL]

/-- The C string a pointer designates: the characters before the first `NUL`. -/
def cstr (p : List Char) : List Char := p.takeWhile (fun c => c ≠ NUL)

/-- The sign of `strcmp` on the contents of two C strings, which is also the
sign of `std::string::compare`: the lexicographic order on unsigned characters. -/
def strcmpChars : List Char → List Char → Int
  | [], [] => 0
  | [], _ :: _ => -1
  | _ :: _, [] => 1
  | a :: as, b :: bs =>
    if a = b then strcmpChars as bs else if a.toNat < b.toNat then -1 else 1

/-- `strcmp` on two pointers. -/
def strcmp (a b : List Char) : Int := strcmpChars (cstr a) (cstr b)

/-- An entry of the static table; `extensions` is `none` for a null pointer,
else the characters written in the literal. -/
structure UtiExtension where
  uti : String
  extensions : Option String
deriving DecidableEq, Repr

/-- The static table `sUtiExtensions`. -/
def sUtiExtensions : List UtiExtension :=
  [ ⟨"com.adobe.pdf", some "pdf\x00"⟩,
    ⟨"com.adobe.photoshop-image", some "psd\x00"⟩,
    ⟨"com.adobe.raw-image", some "dng\x00"⟩,
    ⟨"com.apple.icns", some "icns\x00"⟩,
    ⟨"com.apple.macpaint-image", some "mac\x00ptng\x00pnt"⟩,
    ⟨"com.apple.pict", some "pict\x00pct\x00pic\x00"⟩,
    ⟨"com.apple.quicktime-image", some "qt\x00mov\x00qtif\x00qti\x00"⟩,
    ⟨"com.apple.rjpeg", some "rjpeg\x00"⟩,
    ⟨"com.canon.cr2-raw-image", some "cr2\x00"⟩,
    ⟨"com.canon.crw-raw-image", some "crw\x00"⟩,
    ⟨"com.canon.tif-raw-image", none⟩,
    ⟨"com.compuserve.gif", some "gif\x00"⟩,
    ⟨"com.dxo.raw-image", some "dxo\x00"⟩,
    ⟨"com.epson.raw-image", some "erf\x00"⟩,
    ⟨"com.fuji.raw-image", some "raf\x00"⟩,
    ⟨"com.hasselblad.3fr-raw-image", some "3fr\x00"⟩,
    ⟨"com.hasselblad.fff-raw-image", some "fff\x00"⟩,
    ⟨"com.ilm.openexr-image", some "exr\x00"⟩,
    ⟨"com.kodak.flashpix-image", some "fpx\x00fpix\x00"⟩,
    ⟨"com.kodak.raw-image", some "dcs\x00dcr\x00drf\x00k25\x00kdc\x00"⟩,
    ⟨"com.konicaminolta.raw-image", some "mrw\x00"⟩,
    ⟨"com.leafamerica.raw-image", some "mos\x00"⟩,
    ⟨"com.leica.raw-image", some "dng\x00"⟩,
    ⟨"com.leica.rwl-raw-image", some "rwl\x00"⟩,
    ⟨"com.microsoft.bmp", some "bmp\x00BMPf\x00"⟩,
    ⟨"com.microsoft.cur", some "cur\x00"⟩,
    ⟨"com.microsoft.ico", some "ico\x00"⟩,
    ⟨"com.nikon.nrw-raw-image", some "nrw\x00"⟩,
    ⟨"com.nikon.raw-image", some "nef\x00"⟩,
    ⟨"com.olympus.or-raw-image", some "orf\x00"⟩,
    ⟨"com.olympus.raw-image", none⟩,
    ⟨"com.olympus.sr-raw-image", some "srw\x00"⟩,
    ⟨"com.panasonic.raw-image", some "raw\x00"⟩,
    ⟨"com.panasonic.rw2-raw-image", some "rw2\x00"⟩,
    ⟨"com.pentax.raw-image", some "pef\x00ptx\x00"⟩,
    ⟨"com.samsung.raw-image", some "srw\x00"⟩,
    ⟨"com.sgi.sgi-image", some "sgi\x00"⟩,
    ⟨"com.sony.arw-raw-image", some "arw\x00"⟩,
    ⟨"com.sony.raw-image", some "srf\x00"⟩,
    ⟨"com.sony.sr2-raw-image", some "sr2\x00"⟩,
    ⟨"com.truevision.tga-image", some "tga\x00targa\x00"⟩,
    ⟨"public.jpeg", some "jpg\x00jpe\x00jpeg\x00"⟩,
    ⟨"public.jpeg-2000", some "jp2\x00j2k\x00jpf\x00jpx\x00jpm\x00mj2\x00"⟩,
    ⟨"public.mpo-image", some "mpo\x00"⟩,
    ⟨"public.pbm", some "pbm\x00"⟩,
    ⟨"public.png", some "png\x00"⟩,
    ⟨"public.pvr", some "pvr\x00"⟩,
    ⟨"public.radiance", some "hdr\x00"⟩,
    ⟨"public.tiff", some "tif\x00tiff\x00"⟩ ]

/-- A native string of the runtime identifier list, as the constructor reads it:
the result of `CFStringGetCStringPtr` (`none` for `NULL`), the result of
`CFStringGetCString`, and the C string that call leaves in `utiBuf`. -/
structure CFString where
  cStringPtr : Option String
  getCString : Bool
  utiBuf : String
deriving DecidableEq, Repr

/-- A native string that exposes its characters directly. -/
def CFString.direct (s : String) : CFString :=
  { cStringPtr := some s, getCString := true, utiBuf := s }

/-- How a walk over character arrays ends. -/
inductive Run (α : Type) where
  /-- It ended with a result. -/
  | done (a : α)
  /-- It read past the end of a character array. -/
  | outOfBounds
  /-- The step bound of the model was used up. -/
  | outOfFuel
deriving DecidableEq, Repr

/-- `FindUti::operator() (const UtiExtension& a, const char* b)`. -/
def FindUti.lt_entry_val (a : UtiExtension) (b : List Char) : Bool :=
  decide (strcmp (literal a.uti) b < 0)

/-- `FindUti::operator() (const char* a, const UtiExtension& b)`. -/
def FindUti.lt_val_entry (a : List Char) (b : UtiExtension) : Bool :=
  decide (strcmp a (literal b.uti) < 0)

/-- The loop of `std::lower_bound` on the range `[first, first + len)` of the
table; `fuel` bounds the number of halvings and `len` suffices. -/
def lower_bound_loop (table : List UtiExtension) (val : List Char) :
    Nat → Nat → Nat → Nat
  | 0, first, _ => first
  | fuel + 1, first, len =>
    if len = 0 then first
    else
      let half := len / 2
      let mid := first + half
      match table.get? mid with
      | none => first
      | some e =>
        if FindUti.lt_entry_val e val then
          lower_bound_loop table val fuel (mid + 1) (len - half - 1)
        else
          lower_bound_loop table val fuel first half

/-- `std::lower_bound (begin, end, val, op)` as an index into the table. -/
def lower_bound (table : List UtiExtension) (val : List Char) : Nat :=
  lower_bound_loop table val table.length 0 table.length

/-- `findExtensions (begin, end, &val)`: the return value and `*val` afterwards
(`none` for a null pointer). -/
def findExtensions (table : List UtiExtension) (val : List Char) : Bool × Option (List Char) :=
  let i := lower_bound table val
  match table.get? i with
  | some e =>
    if !FindUti.lt_val_entry val e then (true, e.extensions.map literal)
    else (false, some val)
  | none => (false, some val)

/-- `operator<` of `std::string`. -/
def stringLt (a b : String) : Bool := decide (strcmpChars a.toList b.toList < 0)

/-- `std::set<std::string>::insert` on the increasing list of the elements. -/
def setInsert (x : String) : List String → List String
  | [] => [x]
  | y :: ys =>
    if stringLt x y then x :: y :: ys
    else if stringLt y x then y :: setInsert x ys
    else y :: ys

/-- State of a `UtiExtensions` object, and what it wrote to `stderr`. -/
structure UtiExtensions where
  mStorage : List (Option String)
  mStrings : List String
  stderr : List String
deriving DecidableEq, Repr

namespace UtiExtensions

/-- The loop of `appendExtensions`; each round moves `extList` forward, so
`fuel` above the length of the array suffices. -/
def appendExtensionsLoop : Nat → List String → List Char → Run (List String)
  | 0, _, _ => Run.outOfFuel
  | fuel + 1, mStrings, extList =>
    match extList with
    | [] => Run.outOfBounds
    | c :: _ =>
      if c = NUL then Run.done mStrings
      else if NUL ∉ extList then Run.outOfBounds
      else
        let s := String.mk (cstr extList)
        appendExtensionsLoop fuel (setInsert s mStrings) (extList.drop (s.length + 1))

/-- `appendExtensions (extList)`. -/
def appendExtensions (self : UtiExtensions) (extList : List Char) : Run UtiExtensions :=
  match appendExtensionsLoop (extList.length + 1) self.mStrings extList with
  | Run.done m => Run.done { self with mStrings := m }
  | Run.outOfBounds => Run.outOfBounds
  | Run.outOfFuel => Run.outOfFuel

/-- `finish`: the strings of the set in order, then the terminating null pointer. -/
def finish (self : UtiExtensions) : UtiExtensions :=
  { self with mStorage := self.mStorage ++ self.mStrings.map some ++ [none] }

/-- One round of the loop of the constructor, for the identifier `uti`. -/
def addUti (self : UtiExtensions) (uti : CFString) : Run UtiExtensions :=
  let cStr : Option String :=
    match uti.cStringPtr with
    | some c => some c
    | none => if uti.getCString then none else some uti.utiBuf
  match cStr with
  | none => Run.done { self with stderr := self.stderr ++ ["Ignoring UTI: "] }
  | some cStr =>
    match findExtensions sUtiExtensions (literal cStr) with
    | (true, some exts) => self.appendExtensions exts
    | (true, none) => Run.done self
    | (false, _) => Run.done { self with stderr := self.stderr ++ ["Unkown UTI: '%s'\n"] }

/-- The loop of the constructor over the identifier list. -/
def addUtis (self : UtiExtensions) : List CFString → Run UtiExtensions
  | [] => Run.done self
  | uti :: rest =>
    match self.addUti uti with
    | Run.done self => addUtis self rest
    | Run.outOfBounds => Run.outOfBounds
    | Run.outOfFuel => Run.outOfFuel

/-- The constructor `UtiExtensions (arrayRef)`. -/
def new (arrayRef : List CFString) : Run UtiExtensions :=
  match addUtis { mStorage := [], mStrings := [], stderr := [] } arrayRef with
  | Run.done self =>
    match self.appendExtensions (literal "eps\x00epi\x00epsf\x00epsi\x00ps\x00") with
    | Run.done self =>
      match self.appendExtensions (literal "xbm\x00cur\x00") with
      | Run.done self => Run.done self.finish
      | Run.outOfBounds => Run.outOfBounds
      | Run.outOfFuel => Run.outOfFuel
    | Run.outOfBounds => Run.outOfBounds
    | Run.outOfFuel => Run.outOfFuel
  | Run.outOfBounds => Run.outOfBounds
  | Run.outOfFuel => Run.outOfFuel

end UtiExtensions

/-! ## Notions used by the statements -/

namespace CoreGraphicsInput

/-- An open reader: it holds a container and its cursor is a page of it. -/
def IsOpen (self : CoreGraphicsInput) : Prop :=
  ∃ src, self.m_source = some src ∧ 0 ≤ self.m_subimage ∧
    self.m_subimage.toNat < src.pages.length

/-- Number of native page decodes the reader has asked for. -/
def decodeCount (self : CoreGraphicsInput) : Nat :=
  self.log.countP (fun c => match c with
    | Call.createImageAtIndex _ => true
    | _ => false)

/-- The reader right after `open_` succeeded on the two-page example. -/
def opened : CoreGraphicsInput := (open_ exampleFiles new "a" ImageSpec.empty).self

end CoreGraphicsInput

/-- Whether the page flags floating-point components: `info & kCGBitmapFloatComponents`. -/
def CGImage.floatComponents (img : CGImage) : Bool :=
  decide (img.bitmapInfo &&& kCGBitmapFloatComponents ≠ 0)

/-- Sample type as the specification derives it from the bit depth and the float flag. -/
def specSampleType (bits : Nat) (isFloat : Bool) : Option TypeDesc :=
  if bits = 8 then some TypeDesc.UINT8
  else if bits = 16 then some (if isFloat then TypeDesc.HALF else TypeDesc.UINT16)
  else if bits = 32 then some (if isFloat then TypeDesc.FLOAT else TypeDesc.UINT32)
  else none

/-- Channel count as the specification derives it from the alpha arrangement. -/
def specChannelCount : CGImageAlphaInfo → Int
  | CGImageAlphaInfo.kCGImageAlphaNone => 3
  | CGImageAlphaInfo.kCGImageAlphaOnly => 1
  | _ => 4

/-- Alpha index as the specification derives it from the alpha arrangement
(`-1` for none, `4` for the last channel in the terms of the host). -/
def specAlphaIndex : CGImageAlphaInfo → Int
  | CGImageAlphaInfo.kCGImageAlphaNone => -1
  | CGImageAlphaInfo.kCGImageAlphaNoneSkipLast => -1
  | CGImageAlphaInfo.kCGImageAlphaNoneSkipFirst => -1
  | CGImageAlphaInfo.kCGImageAlphaLast => 4
  | CGImageAlphaInfo.kCGImageAlphaPremultipliedLast => 4
  | CGImageAlphaInfo.kCGImageAlphaFirst => 0
  | CGImageAlphaInfo.kCGImageAlphaPremultipliedFirst => 0
  | CGImageAlphaInfo.kCGImageAlphaOnly => 0

/-! ## Further example containers -/

/-- A 4x4, 8-bit page without alpha whose rows are padded to 16 bytes. -/
def paddedPage : CGImage :=
  { width := 4, height := 4, bitsPerComponent := 8, bitmapInfo := 0,
    alphaInfo := CGImageAlphaInfo.kCGImageAlphaNone, bytesPerRow := 16,
    data := some (List.range 64) }

/-- A reader positioned on `paddedPage`, its descriptor derived from that page. -/
def onPadded : CoreGraphicsInput :=
  (CoreGraphicsInput.seek_subimage
    { CoreGraphicsInput.new with
      m_source := some { pages := [some paddedPage], loopCount := none }, m_subimage := -1 }
    0 0 ImageSpec.empty).self

/-- A page of 4 bits per component, rows of 6 bytes. -/
def oddPage : CGImage :=
  { width := 4, height := 4, bitsPerComponent := 4, bitmapInfo := 0,
    alphaInfo := CGImageAlphaInfo.kCGImageAlphaNone, bytesPerRow := 6,
    data := some ((List.range 24).map (fun b => b + 200)) }

/-- A reader opened on the container of `page0` followed by `oddPage`. -/
def beforeOdd : CoreGraphicsInput :=
  (CoreGraphicsInput.seek_subimage
    { CoreGraphicsInput.new with
      m_source := some { pages := [some page0, some oddPage], loopCount := none },
      m_subimage := -1 }
    0 0 ImageSpec.empty).self

/-! ## Notions used by the statements on extensions -/

/-- A table is sorted when its identifiers increase strictly under `strcmp`. -/
def Sorted (table : List UtiExtension) : Prop :=
  table.Pairwise (fun a b => strcmp (literal a.uti) (literal b.uti) < 0)

instance (table : List UtiExtension) : Decidable (Sorted table) := by
  unfold Sorted
  infer_instance

/-- The character array that lists the extensions `exts`, each followed by its
terminator, and ends with an empty string. -/
def encode (exts : List String) : List Char :=
  (exts.map (fun s => s.toList ++ [NUL])).flatten ++ [NUL]

/-- The extensions listed in a bundle, as the specification words it: the
bundle split on its separators, without the empty pieces. -/
def listed (bundle : String) : List String :=
  ((bundle.toList.splitOn NUL).filter (fun s => s ≠ [])).map String.mk

/-- The fixed extras that the constructor appends. -/
def fixedExtras : List String := ["eps", "epi", "epsf", "epsi", "ps", "xbm", "cur"]

/-- A proper extension: not empty and without a `NUL` character. -/
def ProperExt (s : String) : Prop := s.toList ≠ [] ∧ NUL ∉ s.toList

instance (s : String) : Decidable (ProperExt s) := by
  unfold ProperExt
  infer_instance

/-- A bundle is terminated when its array lists proper extensions and ends
with an empty string. -/
def Terminated (bundle : String) : Prop :=
  literal bundle = encode (listed bundle) ∧ ∀ s ∈ listed bundle, ProperExt s

instance (bundle : String) : Decidable (Terminated bundle) := by
  unfold Terminated
  infer_instance

/-! ## Notions used by the statements on the life of a reader -/

/-- The states a reader can be in: those reached from a freshly constructed
reader by calls of `valid_file`, `open_`, `seek_subimage`,
`read_native_scanlines` and `close`. -/
inductive Reachable (fs : Files) (ndebug : Bool) : CoreGraphicsInput → Prop where
  | fresh : Reachable fs ndebug CoreGraphicsInput.new
  | valid_file (self : CoreGraphicsInput) (name : String) :
      Reachable fs ndebug self → Reachable fs ndebug (self.valid_file fs name).2
  | open_ (self : CoreGraphicsInput) (name : String) (spec : ImageSpec) :
      Reachable fs ndebug self → Reachable fs ndebug (self.open_ fs name spec).self
  | seek (self : CoreGraphicsInput) (subimage miplevel : Int) (newspec : ImageSpec) :
      Reachable fs ndebug self →
      Reachable fs ndebug (self.seek_subimage subimage miplevel newspec).self
  | read (self : CoreGraphicsInput) (ybegin yend z : Int) :
      Reachable fs ndebug self →
      Reachable fs ndebug (self.read_native_scanlines ndebug ybegin yend z).2
  | close (self : CoreGraphicsInput) :
      Reachable fs ndebug self → Reachable fs ndebug self.close.2

/-- The releases `close` makes on a reader: buffer, page, container, each if held. -/
def closeReleases (self : CoreGraphicsInput) : List Call :=
  (if self.m_data.isSome then [Call.CFRelease RefKind.data] else []) ++
  (if self.m_image.isSome then [Call.CFRelease RefKind.image] else []) ++
  (if self.m_source.isSome then [Call.CFRelease RefKind.source] else [])

/-- A container whose page 1 the native decoder cannot decode. -/
def nullSecond : CGImageSource := { pages := [some page0, none], loopCount := none }

/-- A file system holding `nullSecond` under the name `b`. -/
def nullFiles : Files :=
  { url := fun _ => true, source := fun n => if n = "b" then some nullSecond else none }

/-- The reader opened on `nullSecond` after row 0 was read. -/
def readOnNull (ndebug : Bool) : CoreGraphicsInput :=
  (CoreGraphicsInput.read_native_scanlines ndebug
    (CoreGraphicsInput.open_ nullFiles CoreGraphicsInput.new "b" ImageSpec.empty).self
    0 1 0).2

/-! ## Notions used by the statements on the resolved sequence -/

/-- The C string the constructor looks up for a native string: the characters
it exposes, else the contents of `utiBuf` when the copy failed; `none` when
the identifier is skipped. -/
def CFString.cStr (uti : CFString) : Option String :=
  match uti.cStringPtr with
  | some c => some c
  | none => if uti.getCString then none else some uti.utiBuf

/-- A native string that exposes no pointer to its characters and whose copy
to ASCII succeeds. -/
def CFString.converted (s : String) : CFString :=
  { cStringPtr := none, getCString := true, utiBuf := s }

/-- What `operator const char**` hands out for an object. -/
def Run.storage : Run UtiExtensions → Run (List (Option String))
  | Run.done self => Run.done self.mStorage
  | Run.outOfBounds => Run.outOfBounds
  | Run.outOfFuel => Run.outOfFuel

/-- The sequence resolved for a runtime identifier list: the constructor, then
`operator const char**`. -/
def UtiExtensions.resolve (arrayRef : List CFString) : Run (List (Option String)) :=
  (UtiExtensions.new arrayRef).storage

/-- Strings in strictly increasing order of `operator<`. -/
def Increasing (m : List String) : Prop := m.Pairwise (fun a b => stringLt a b = true)

/-- The character array that lists the extensions `exts`, each followed by its
terminator, without an empty string at the end. -/
def encodeOpen (exts : List String) : List Char :=
  (exts.map (fun s => s.toList ++ [NUL])).flatten

/-- Two runs end the same way and, when they yield objects, with the same set
and the same sequence (what was written to `stderr` may differ). -/
def SameSets : Run UtiExtensions → Run UtiExtensions → Prop
  | Run.done a, Run.done b => a.mStorage = b.mStorage ∧ a.mStrings = b.mStrings
  | Run.outOfBounds, Run.outOfBounds => True
  | Run.outOfFuel, Run.outOfFuel => True
  | _, _ => False

/-! ## Seeking: auxiliary facts -/

namespace CoreGraphicsInput

theorem invalidateIfBefore_source (self : CoreGraphicsInput) (n : Int) :
    (self.invalidateIfBefore n).m_source = self.m_source := by
  unfold invalidateIfBefore
  split <;> rfl

theorem invalidateIfBefore_cursor (self : CoreGraphicsInput) (n : Int) :
    (self.invalidateIfBefore n).m_subimage = self.m_subimage ∧
      (self.invalidateIfBefore n).m_spec = self.m_spec := by
  unfold invalidateIfBefore
  split <;> exact ⟨rfl, rfl⟩

theorem invalidateIfBefore_forward (self : CoreGraphicsInput) (n : Int)
    (h : self.m_subimage ≤ n) : self.invalidateIfBefore n = self := by
  unfold invalidateIfBefore
  rw [if_neg (not_lt.mpr h)]

theorem decodePage_fields (self : CoreGraphicsInput) (i : Nat) :
    (self.decodePage i).m_source = self.m_source ∧
    (self.decodePage i).m_subimage = self.m_subimage ∧
    (self.decodePage i).m_spec = self.m_spec ∧
    (self.decodePage i).m_data = self.m_data := by
  simp [decodePage, reset_image]

theorem seek_negative (self : CoreGraphicsInput) (n m : Int) (newspec : ImageSpec)
    (h : n < 0) :
    seek_subimage self n m newspec = { ok := false, newspec := newspec, self := self } := by
  simp [seek_subimage, h]

theorem seek_same (self : CoreGraphicsInput) (n : Int) (newspec : ImageSpec)
    (h0 : 0 ≤ n) (h : self.m_subimage = n) :
    seek_subimage self n 0 newspec = { ok := true, newspec := self.m_spec, self := self } := by
  simp [seek_subimage, h, not_lt.mpr h0]

/-- The path of `seek_subimage` past its two first guards. -/
theorem seek_other (self : CoreGraphicsInput) (n : Int) (newspec : ImageSpec)
    (h0 : 0 ≤ n) (h : self.m_subimage ≠ n) :
    seek_subimage self n 0 newspec =
      if n.toNat ≥ CGImageSourceGetCount self.m_source then
        { ok := false, newspec := newspec, self := self.invalidateIfBefore n }
      else if (deriveSpec self.m_source
          ((self.invalidateIfBefore n).decodePage n.toNat).m_image).1 then
        { ok := true,
          newspec := (deriveSpec self.m_source
            ((self.invalidateIfBefore n).decodePage n.toNat).m_image).2,
          self := { (self.invalidateIfBefore n).decodePage n.toNat with
            m_spec := (deriveSpec self.m_source
              ((self.invalidateIfBefore n).decodePage n.toNat).m_image).2,
            m_subimage := n } }
      else
        { ok := false,
          newspec := (deriveSpec self.m_source
            ((self.invalidateIfBefore n).decodePage n.toNat).m_image).2,
          self := (self.invalidateIfBefore n).decodePage n.toNat } := by
  have hs : ((self.invalidateIfBefore n).decodePage n.toNat).m_source = self.m_source := by
    simp [decodePage, reset_image, invalidateIfBefore_source]
  unfold seek_subimage
  rw [if_neg (by push_neg; exact ⟨h0, rfl⟩), if_neg h]
  simp only [invalidateIfBefore_source, hs]

theorem seek_ok_cursor (self : CoreGraphicsInput) (n m : Int) (newspec : ImageSpec)
    (h : (seek_subimage self n m newspec).ok = true) :
    0 ≤ n ∧ m = 0 ∧ (seek_subimage self n m newspec).self.m_subimage = n ∧
      (seek_subimage self n m newspec).self.m_spec = (seek_subimage self n m newspec).newspec := by
  by_cases hg : n < 0 ∨ m ≠ 0
  · simp [seek_subimage, hg] at h
  · push_neg at hg
    obtain ⟨h0, rfl⟩ := hg
    refine ⟨h0, rfl, ?_⟩
    by_cases hc : self.m_subimage = n
    · rw [seek_same self n newspec h0 hc]
      exact ⟨hc, rfl⟩
    · rw [seek_other self n newspec h0 hc] at h ⊢
      split at h
      · simp at h
      · split at h
        · rename_i h1 h2
          rw [if_neg h1, if_pos h2]
          exact ⟨rfl, rfl⟩
        · simp at h

/-- A seek never changes the container, and changes the cursor only on success. -/
theorem seek_source_cursor (self : CoreGraphicsInput) (n m : Int) (newspec : ImageSpec) :
    (seek_subimage self n m newspec).self.m_source = self.m_source ∧
    ((seek_subimage self n m newspec).ok = false →
      (seek_subimage self n m newspec).self.m_subimage = self.m_subimage ∧
      (seek_subimage self n m newspec).self.m_spec = self.m_spec) := by
  by_cases hg : n < 0 ∨ m ≠ 0
  · simp [seek_subimage, hg]
  · push_neg at hg
    obtain ⟨h0, rfl⟩ := hg
    by_cases hc : self.m_subimage = n
    · rw [seek_same self n newspec h0 hc]
      simp
    · rw [seek_other self n newspec h0 hc]
      have hI := invalidateIfBefore_cursor self n
      have hP := decodePage_fields (self.invalidateIfBefore n) n.toNat
      split
      · exact ⟨invalidateIfBefore_source self n, fun _ => hI⟩
      · split
        · refine ⟨?_, fun h => by simp at h⟩
          show ((self.invalidateIfBefore n).decodePage n.toNat).m_source = _
          rw [hP.1, invalidateIfBefore_source]
        · refine ⟨?_, fun _ => ⟨?_, ?_⟩⟩
          · show ((self.invalidateIfBefore n).decodePage n.toNat).m_source = _
            rw [hP.1, invalidateIfBefore_source]
          · show ((self.invalidateIfBefore n).decodePage n.toNat).m_subimage = _
            rw [hP.2.1, hI.1]
          · show ((self.invalidateIfBefore n).decodePage n.toNat).m_spec = _
            rw [hP.2.2.1, hI.2]

/-- A successful seek to a page other than the cursor names a page of the container. -/
theorem seek_ok_in_range (self : CoreGraphicsInput) (n m : Int) (newspec : ImageSpec)
    (h : (seek_subimage self n m newspec).ok = true) (hne : n ≠ self.m_subimage) :
    0 ≤ n ∧ n.toNat < CGImageSourceGetCount self.m_source := by
  have h0 := (seek_ok_cursor self n m newspec h).1
  have hm := (seek_ok_cursor self n m newspec h).2.1
  subst hm
  refine ⟨h0, ?_⟩
  rw [seek_other self n newspec h0 (Ne.symm hne)] at h
  by_contra hge
  rw [if_pos (not_lt.mp hge)] at h
  simp at h

/-- A seek that fails at the first guard, or at the page count on the forward
path, leaves the reader and the caller's descriptor untouched. -/
theorem seek_early_failure_unchanged (self : CoreGraphicsInput) (n m : Int)
    (newspec : ImageSpec)
    (h : n < 0 ∨ (self.m_subimage < n ∧ (CGImageSourceGetCount self.m_source : Int) ≤ n)) :
    seek_subimage self n m newspec = { ok := false, newspec := newspec, self := self } := by
  rcases h with h | ⟨hlt, hc⟩
  · exact seek_negative self n m newspec h
  · by_cases hg : n < 0 ∨ m ≠ 0
    · simp [seek_subimage, hg]
    · push_neg at hg
      obtain ⟨h0, rfl⟩ := hg
      rw [seek_other self n newspec h0 (ne_of_lt hlt),
        invalidateIfBefore_forward self n (le_of_lt hlt), if_pos (by omega)]

/-- On the forward path a seek leaves `m_data` as it was, whether it succeeds or not. -/
theorem seek_forward_keeps_buffer (self : CoreGraphicsInput) (n m : Int) (newspec : ImageSpec)
    (hlt : self.m_subimage < n) :
    (seek_subimage self n m newspec).self.m_data = self.m_data := by
  by_cases hg : n < 0 ∨ m ≠ 0
  · simp [seek_subimage, hg]
  · push_neg at hg
    obtain ⟨h0, rfl⟩ := hg
    rw [seek_other self n newspec h0 (ne_of_lt hlt),
      invalidateIfBefore_forward self n (le_of_lt hlt)]
    have hP := (decodePage_fields self n.toNat).2.2.2
    split
    · rfl
    · split
      · exact hP
      · exact hP

/-- On the backward path a seek to a page `n ≥ 0` leaves no buffer. -/
theorem seek_backward_drops_buffer (self : CoreGraphicsInput) (n : Int) (newspec : ImageSpec)
    (h0 : 0 ≤ n) (hgt : n < self.m_subimage) :
    (seek_subimage self n 0 newspec).self.m_data = none := by
  have hI : (self.invalidateIfBefore n).m_data = none := by
    unfold invalidateIfBefore
    rw [if_pos hgt]
    rfl
  have hP := (decodePage_fields (self.invalidateIfBefore n) n.toNat).2.2.2
  rw [seek_other self n newspec h0 (ne_of_gt hgt)]
  split
  · exact hI
  · split
    · exact hP.trans hI
    · exact hP.trans hI

end CoreGraphicsInput

/-! ## The derived descriptor -/

namespace CoreGraphicsInput

theorem sampleFormat_eq_spec (img : CGImage) :
    sampleFormat img.bitsPerComponent img.bitmapInfo =
      specSampleType img.bitsPerComponent img.floatComponents := by
  unfold sampleFormat specSampleType CGImage.floatComponents
  by_cases hf : img.bitmapInfo &&& kCGBitmapFloatComponents ≠ 0 <;> simp [hf]

theorem alphaLayout_fields (a : CGImageAlphaInfo) (s : ImageSpec) :
    (alphaLayout a s).nchannels = specChannelCount a ∧
    (alphaLayout a s).alpha_channel = specAlphaIndex a ∧
    (alphaLayout a s).width = s.width ∧ (alphaLayout a s).height = s.height ∧
    (alphaLayout a s).format = s.format ∧ (alphaLayout a s).extra_attribs = s.extra_attribs := by
  cases a <;> simp [alphaLayout, specChannelCount, specAlphaIndex]

theorem sourceAttributes_fields (src : Option CGImageSource) (s : ImageSpec) :
    (sourceAttributes src s).nchannels = s.nchannels ∧
    (sourceAttributes src s).alpha_channel = s.alpha_channel ∧
    (sourceAttributes src s).width = s.width ∧ (sourceAttributes src s).height = s.height ∧
    (sourceAttributes src s).format = s.format := by
  unfold sourceAttributes
  split <;> split <;> simp [ImageSpec.attrib]

theorem sourceAttributes_movie (src : Option CGImageSource) (s : ImageSpec)
    (hs : s.extra_attribs = []) :
    ((∃ v, ("oiio:Movie", v) ∈ (sourceAttributes src s).extra_attribs) ↔
        1 < CGImageSourceGetCount src) ∧
    (1 < CGImageSourceGetCount src →
        (sourceAttributes src s).hasAttribute "oiio:Movie" 1) := by
  unfold sourceAttributes ImageSpec.hasAttribute
  by_cases hl : loopCountOf src ≠ 0 <;> by_cases hc : CGImageSourceGetCount src > 1 <;>
    simp [hl, hc, hs, ImageSpec.attrib]

/-- The descriptor after the alpha `switch`, the channel names and the attributes. -/
theorem derive_tail (src : Option CGImageSource) (a : CGImageAlphaInfo) (s : ImageSpec)
    (hs : s.extra_attribs = []) :
    (sourceAttributes src (alphaLayout a s).default_channel_names).format = s.format ∧
    (sourceAttributes src (alphaLayout a s).default_channel_names).nchannels
      = specChannelCount a ∧
    (sourceAttributes src (alphaLayout a s).default_channel_names).alpha_channel
      = specAlphaIndex a ∧
    (sourceAttributes src (alphaLayout a s).default_channel_names).width = s.width ∧
    (sourceAttributes src (alphaLayout a s).default_channel_names).height = s.height ∧
    ((∃ v, ("oiio:Movie", v) ∈
        (sourceAttributes src (alphaLayout a s).default_channel_names).extra_attribs) ↔
      1 < CGImageSourceGetCount src) ∧
    (1 < CGImageSourceGetCount src →
      (sourceAttributes src (alphaLayout a s).default_channel_names).hasAttribute
        "oiio:Movie" 1) := by
  have hA := alphaLayout_fields a s
  have hS := sourceAttributes_fields src (alphaLayout a s).default_channel_names
  have hM := sourceAttributes_movie src (alphaLayout a s).default_channel_names
    (by rw [← hs, ← hA.2.2.2.2.2]; rfl)
  refine ⟨?_, ?_, ?_, ?_, ?_, hM.1, hM.2⟩
  · rw [hS.2.2.2.2, ← hA.2.2.2.2.1]; rfl
  · rw [hS.1, ← hA.1]; rfl
  · rw [hS.2.1, ← hA.2.1]; rfl
  · rw [hS.2.2.1, ← hA.2.2.1]; rfl
  · rw [hS.2.2.2.1, ← hA.2.2.2.1]; rfl

/-- What `deriveSpec` yields for a decoded page. -/
theorem deriveSpec_page (src : Option CGImageSource) (img : CGImage) :
    ((deriveSpec src (some img)).1 = true ↔
        (img.bitsPerComponent = 8 ∨ img.bitsPerComponent = 16 ∨ img.bitsPerComponent = 32)) ∧
    ((deriveSpec src (some img)).1 = true →
      some (deriveSpec src (some img)).2.format =
          specSampleType img.bitsPerComponent img.floatComponents ∧
      (deriveSpec src (some img)).2.nchannels = specChannelCount img.alphaInfo ∧
      (deriveSpec src (some img)).2.alpha_channel = specAlphaIndex img.alphaInfo ∧
      (deriveSpec src (some img)).2.width = toInt32 img.width ∧
      (deriveSpec src (some img)).2.height = toInt32 img.height ∧
      ((∃ v, ("oiio:Movie", v) ∈ (deriveSpec src (some img)).2.extra_attribs) ↔
        1 < CGImageSourceGetCount src) ∧
      (1 < CGImageSourceGetCount src →
        (deriveSpec src (some img)).2.hasAttribute "oiio:Movie" 1)) := by
  have hsf := sampleFormat_eq_spec img
  unfold deriveSpec
  simp only [CGImageGetBitsPerComponent, CGImageGetBitmapInfo, CGImageGetWidth,
    CGImageGetHeight, CGImageGetAlphaInfo, Option.map_some', Option.getD_some]
  cases hfmt : sampleFormat img.bitsPerComponent img.bitmapInfo with
  | none =>
    refine ⟨?_, by simp⟩
    simp only [Bool.false_eq_true, false_iff]
    intro hb
    unfold sampleFormat at hfmt
    rcases hb with hb | hb | hb <;> simp [hb] at hfmt
  | some fmt =>
    refine ⟨?_, ?_⟩
    · simp only [true_iff]
      unfold sampleFormat at hfmt
      by_contra hb
      push_neg at hb
      simp [hb.1, hb.2.1, hb.2.2] at hfmt
    · intro _
      have hT := derive_tail src img.alphaInfo
        ((ImageSpec.ctor img.width img.height).set_format fmt) rfl
      refine ⟨?_, hT.2.1, hT.2.2.1, hT.2.2.2.1, hT.2.2.2.2.1, hT.2.2.2.2.2.1, hT.2.2.2.2.2.2⟩
      rw [← hsf, hfmt]
      exact congrArg some hT.1

theorem decodeCount_releaseIf (held : Bool) (kind : RefKind) (log : List Call) :
    (releaseIf held kind log).countP (fun c => match c with
      | Call.createImageAtIndex _ => true
      | _ => false) =
    log.countP (fun c => match c with
      | Call.createImageAtIndex _ => true
      | _ => false) := by
  unfold releaseIf
  split <;> simp

theorem decodeCount_invalidateIfBefore (self : CoreGraphicsInput) (n : Int) :
    (self.invalidateIfBefore n).decodeCount = self.decodeCount := by
  unfold invalidateIfBefore decodeCount
  split
  · simp only [reset_image, reset_data]
    rw [decodeCount_releaseIf, decodeCount_releaseIf]
  · rfl

theorem decodeCount_decodePage (self : CoreGraphicsInput) (i : Nat) :
    (self.decodePage i).decodeCount = self.decodeCount + 1 := by
  unfold decodePage decodeCount
  simp only [reset_image]
  rw [decodeCount_releaseIf]
  simp

/-- The page `decodePage` leaves in `m_image`. -/
theorem decodePage_image (self : CoreGraphicsInput) (src : CGImageSource) (n : Int)
    (img : Option CGImage) (hsrc : self.m_source = some src)
    (himg : src.pages.get? n.toNat = some img) :
    ((self.invalidateIfBefore n).decodePage n.toNat).m_image = img := by
  rw [List.get?_eq_getElem?] at himg
  simp [decodePage, reset_image, invalidateIfBefore_source, hsrc,
    CGImageSourceCreateImageAtIndex, himg]

/-- What a seek to a decodable page of supported depth, other than the cursor, leaves. -/
theorem seek_page (self : CoreGraphicsInput) (src : CGImageSource) (img : CGImage)
    (n : Int) (newspec : ImageSpec)
    (hsrc : self.m_source = some src) (h0 : 0 ≤ n) (hne : n ≠ self.m_subimage)
    (himg : src.pages.get? n.toNat = some (some img))
    (hbits : img.bitsPerComponent = 8 ∨ img.bitsPerComponent = 16 ∨
      img.bitsPerComponent = 32) :
    (seek_subimage self n 0 newspec).ok = true ∧
    (seek_subimage self n 0 newspec).self.m_image = some img ∧
    (seek_subimage self n 0 newspec).self.decodeCount = self.decodeCount + 1 ∧
    (seek_subimage self n 0 newspec).newspec.width = toInt32 img.width ∧
    (seek_subimage self n 0 newspec).newspec.height = toInt32 img.height ∧
    some (seek_subimage self n 0 newspec).newspec.format =
      specSampleType img.bitsPerComponent img.floatComponents ∧
    (seek_subimage self n 0 newspec).newspec.nchannels = specChannelCount img.alphaInfo ∧
    (seek_subimage self n 0 newspec).newspec.alpha_channel = specAlphaIndex img.alphaInfo ∧
    ((∃ v, ("oiio:Movie", v) ∈ (seek_subimage self n 0 newspec).newspec.extra_attribs) ↔
      1 < src.pages.length) ∧
    (1 < src.pages.length →
      (seek_subimage self n 0 newspec).newspec.hasAttribute "oiio:Movie" 1) ∧
    (seek_subimage self n 0 newspec).self.current_subimage = n ∧
    (seek_subimage self n 0 newspec).self.m_spec = (seek_subimage self n 0 newspec).newspec := by
  have hlt : n.toNat < src.pages.length := by
    by_contra hge
    rw [List.get?_eq_none.mpr (not_lt.mp hge)] at himg
    exact Option.noConfusion himg
  have hX := decodePage_image self src n (some img) hsrc himg
  have hD := deriveSpec_page (some src) img
  have hok := hD.1.mpr hbits
  have hF := hD.2 hok
  have hseek := seek_other self n newspec h0 (Ne.symm hne)
  rw [hsrc, hX, if_neg (by simpa [CGImageSourceGetCount] using hlt), if_pos hok] at hseek
  rw [hseek]
  refine ⟨rfl, hX, ?_, hF.2.2.2.1, hF.2.2.2.2.1, hF.1, hF.2.1, hF.2.2.1, hF.2.2.2.2.2.1,
    hF.2.2.2.2.2.2, rfl, rfl⟩
  show ((self.invalidateIfBefore n).decodePage n.toNat).decodeCount = _
  rw [decodeCount_decodePage, decodeCount_invalidateIfBefore]

end CoreGraphicsInput

/-! ## Reading rows: auxiliary facts -/

namespace CoreGraphicsInput

theorem toSize_of_nonneg (x : Int) (h0 : 0 ≤ x) (h : x < 2 ^ 64) : toSize x = x.toNat := by
  unfold toSize SIZE_MOD
  rw [Int.emod_eq_of_lt h0 (by exact_mod_cast h)]

theorem toInt32_of_range (x : Int) (h0 : -2 ^ 31 ≤ x) (h : x < 2 ^ 31) : toInt32 x = x := by
  unfold toInt32
  rw [Int.emod_eq_of_lt (by omega) (by omega)]
  omega

theorem fetchData_fields (self : CoreGraphicsInput) :
    (fetchData self).m_image = self.m_image ∧ (fetchData self).m_spec = self.m_spec ∧
    (fetchData self).m_source = self.m_source ∧
    (fetchData self).m_subimage = self.m_subimage := by
  unfold fetchData
  split <;> simp [reset_data]

theorem fetchData_data (self : CoreGraphicsInput) (img : CGImage) (B : List Nat)
    (himg : self.m_image = some img)
    (hB : self.m_data = some B ∨ (self.m_data = none ∧ img.data = some B)) :
    (fetchData self).m_data = some B := by
  unfold fetchData
  rcases hB with hB | ⟨hB, hd⟩
  · simp [hB]
  · simp [hB, reset_data, CGDataProviderCopyData, himg, hd]

theorem expectedRowbytes_fetchData (self : CoreGraphicsInput) :
    expectedRowbytes (fetchData self) = expectedRowbytes self := by
  unfold expectedRowbytes
  rw [(fetchData_fields self).1, (fetchData_fields self).2.1]

/-- The rows `read_native_scanlines` lets through although they end past the
buffer: start and length each fit the buffer length, their sum does not. -/
theorem read_rows_overrun (ndebug : Bool) (self : CoreGraphicsInput) (img : CGImage)
    (B : List Nat) (ybegin yend z : Int)
    (himg : self.m_image = some img)
    (hB : self.m_data = some B ∨ (self.m_data = none ∧ img.data = some B))
    (hassert : ndebug = true ∨ img.bytesPerRow = expectedRowbytes self)
    (h0 : 0 ≤ ybegin) (hle : ybegin ≤ yend) (hint : yend < 2 ^ 31)
    (hstart : ybegin * img.bytesPerRow ≤ B.length)
    (hlen : (yend - ybegin) * img.bytesPerRow ≤ B.length)
    (hpast : (B.length : Int) < yend * img.bytesPerRow) (hL : B.length < 2 ^ 64) :
    (read_native_scanlines ndebug self ybegin yend z).1 =
      ReadOutcome.overrun (ybegin.toNat * img.bytesPerRow)
        ((yend - ybegin).toNat * img.bytesPerRow) := by
  have hd := fetchData_data self img B himg hB
  have hi := (fetchData_fields self).1
  have hrow : CGImageGetBytesPerRow (fetchData self).m_image = img.bytesPerRow := by
    rw [hi, himg]; rfl
  have hb : toSize ybegin = ybegin.toNat := toSize_of_nonneg ybegin h0 (by omega)
  have hdiff : toSize (toInt32 (yend - ybegin)) = (yend - ybegin).toNat := by
    rw [toInt32_of_range _ (by omega) (by omega)]
    exact toSize_of_nonneg _ (by omega) (by omega)
  obtain ⟨yb, rfl⟩ := Int.eq_ofNat_of_zero_le h0
  obtain ⟨ye, rfl⟩ := Int.eq_ofNat_of_zero_le (le_trans h0 hle)
  have hle2 : yb ≤ ye := by exact_mod_cast hle
  have hsub : ((ye : Int) - (yb : Int)).toNat = ye - yb := by omega
  have hsubc : ((ye : Int) - (yb : Int)) = ((ye - yb : Nat) : Int) := by omega
  have hstart2 : yb * img.bytesPerRow ≤ B.length := by exact_mod_cast hstart
  have hlen2 : (ye - yb) * img.bytesPerRow ≤ B.length := by
    rw [hsubc] at hlen; exact_mod_cast hlen
  have hpast2 : B.length < ye * img.bytesPerRow := by exact_mod_cast hpast
  have hsum : yb * img.bytesPerRow + (ye - yb) * img.bytesPerRow = ye * img.bytesPerRow := by
    rw [← Nat.add_mul]; congr 1; omega
  have hmod1 : yb * img.bytesPerRow % SIZE_MOD = yb * img.bytesPerRow :=
    Nat.mod_eq_of_lt (by unfold SIZE_MOD; omega)
  have hmod2 : (ye - yb) * img.bytesPerRow % SIZE_MOD = (ye - yb) * img.bytesPerRow :=
    Nat.mod_eq_of_lt (by unfold SIZE_MOD; omega)
  have hnoabort : ¬ (!ndebug ∧ img.bytesPerRow ≠ expectedRowbytes (fetchData self)) := by
    rw [expectedRowbytes_fetchData]
    rcases hassert with h | h
    · simp [h]
    · simp [h]
  unfold read_native_scanlines
  simp only [hd, hrow, hb, hdiff, hsub, Int.toNat_ofNat, hmod1, hmod2]
  rw [if_neg hnoabort, if_neg (by omega), if_neg (by omega)]
  unfold CFDataGetBytes
  rw [if_neg (by omega)]

end CoreGraphicsInput

/-! ## Open readers -/

namespace CoreGraphicsInput

/-- A successful seek to page 0 from the cursor `-1` leaves an open reader. -/
theorem seek_first_isOpen (self : CoreGraphicsInput) (spec : ImageSpec)
    (hs : self.m_subimage = -1) (h : (seek_subimage self 0 0 spec).ok = true) :
    IsOpen (seek_subimage self 0 0 spec).self := by
  have hc := seek_ok_cursor self 0 0 spec h
  have hr := seek_ok_in_range self 0 0 spec h (by rw [hs]; decide)
  have hsrc := (seek_source_cursor self 0 0 spec).1
  cases hm : self.m_source with
  | none => rw [hm] at hr; simp [CGImageSourceGetCount] at hr
  | some src =>
    rw [hm] at hr hsrc
    refine ⟨src, hsrc, ?_, ?_⟩
    · rw [hc.2.2.1]
    · rw [hc.2.2.1]
      simpa [CGImageSourceGetCount] using hr.2

/-- A successful `open_` leaves an open reader. -/
theorem open_ok_isOpen (fs : Files) (self : CoreGraphicsInput) (name : String)
    (spec : ImageSpec) (h : (open_ fs self name spec).ok = true) :
    IsOpen (open_ fs self name spec).self := by
  unfold open_ at h ⊢
  by_cases hv : (self.valid_file fs name).1 = true
  · simp only [hv, Bool.not_true, Bool.false_eq_true, ↓reduceIte] at h ⊢
    exact seek_first_isOpen _ spec rfl h
  · simp [hv] at h

/-- Seeking keeps an open reader open, whether it succeeds or not. -/
theorem seek_preserves_isOpen (self : CoreGraphicsInput) (n m : Int) (newspec : ImageSpec)
    (hopen : IsOpen self) : IsOpen (seek_subimage self n m newspec).self := by
  obtain ⟨src, hsrc, hlo, hhi⟩ := hopen
  have hs := seek_source_cursor self n m newspec
  cases hok : (seek_subimage self n m newspec).ok with
  | false =>
    refine ⟨src, by rw [hs.1, hsrc], ?_, ?_⟩
    · rw [(hs.2 hok).1]; exact hlo
    · rw [(hs.2 hok).1]; exact hhi
  | true =>
    have hc := seek_ok_cursor self n m newspec hok
    refine ⟨src, by rw [hs.1, hsrc], ?_, ?_⟩
    · rw [hc.2.2.1]; exact hc.1
    · rw [hc.2.2.1]
      by_cases hne : n = self.m_subimage
      · rw [hne]; exact hhi
      · have hr := seek_ok_in_range self n m newspec hok hne
        rw [hsrc] at hr
        simpa [CGImageSourceGetCount] using hr.2

/-- Reading rows keeps an open reader open. -/
theorem read_preserves_isOpen (ndebug : Bool) (self : CoreGraphicsInput) (ybegin yend z : Int)
    (hopen : IsOpen self) : IsOpen (read_native_scanlines ndebug self ybegin yend z).2 := by
  obtain ⟨src, hsrc, hlo, hhi⟩ := hopen
  have hf := fetchData_fields self
  have key : (read_native_scanlines ndebug self ybegin yend z).2.m_source = self.m_source ∧
      (read_native_scanlines ndebug self ybegin yend z).2.m_subimage = self.m_subimage := by
    unfold read_native_scanlines
    simp only []
    split
    · exact ⟨hf.2.2.1, hf.2.2.2⟩
    · split
      · exact ⟨hf.2.2.1, hf.2.2.2⟩
      · split
        · exact ⟨hf.2.2.1, hf.2.2.2⟩
        · split
          · exact ⟨hf.2.2.1, hf.2.2.2⟩
          · exact ⟨hf.2.2.1, hf.2.2.2⟩
  exact ⟨src, by rw [key.1, hsrc], by rw [key.2]; exact hlo, by rw [key.2]; exact hhi⟩

end CoreGraphicsInput

/-! ## Ordering of C strings -/

theorem Char_toNat_inj (a b : Char) (h : a.toNat = b.toNat) : a = b := by
  rw [← Char.ofNat_toNat a, ← Char.ofNat_toNat b, h]

theorem strcmpChars_self (a : List Char) : strcmpChars a a = 0 := by
  induction a with
  | nil => rfl
  | cons x xs ih => simp [strcmpChars, ih]

theorem strcmpChars_eq_zero (a b : List Char) (h : strcmpChars a b = 0) : a = b := by
  induction a generalizing b with
  | nil =>
    cases b with
    | nil => rfl
    | cons y ys => simp [strcmpChars] at h
  | cons x xs ih =>
    cases b with
    | nil => simp [strcmpChars] at h
    | cons y ys =>
      simp only [strcmpChars] at h
      split at h
      · rename_i hxy
        rw [hxy, ih ys h]
      · split at h <;> omega

/-- Of two C strings one is below the other, or they are equal. -/
theorem strcmpChars_trichotomy (a b : List Char) :
    strcmpChars a b < 0 ∨ a = b ∨ strcmpChars b a < 0 := by
  induction a generalizing b with
  | nil =>
    cases b with
    | nil => exact Or.inr (Or.inl rfl)
    | cons y ys => left; simp [strcmpChars]
  | cons x xs ih =>
    cases b with
    | nil => right; right; simp [strcmpChars]
    | cons y ys =>
      simp only [strcmpChars]
      by_cases hxy : x = y
      · subst hxy
        simp only [if_true]
        rcases ih ys with h | h | h
        · exact Or.inl h
        · exact Or.inr (Or.inl (by rw [h]))
        · exact Or.inr (Or.inr h)
      · have hyx : ¬ y = x := fun e => hxy e.symm
        have hn : x.toNat ≠ y.toNat := fun e => hxy (Char_toNat_inj x y e)
        rw [if_neg hxy, if_neg hyx]
        by_cases hlt : x.toNat < y.toNat
        · left; simp [hlt]
        · right; right
          have : y.toNat < x.toNat := by omega
          simp [this]

theorem strcmpChars_asymm (a b : List Char) (h : strcmpChars a b < 0) :
    ¬ strcmpChars b a < 0 := by
  induction a generalizing b with
  | nil =>
    cases b with
    | nil => simp [strcmpChars] at h
    | cons y ys => simp [strcmpChars]
  | cons x xs ih =>
    cases b with
    | nil => simp [strcmpChars] at h
    | cons y ys =>
      simp only [strcmpChars] at h ⊢
      by_cases hxy : x = y
      · subst hxy
        simp only [if_true] at h ⊢
        exact ih ys h
      · have hyx : ¬ y = x := fun e => hxy e.symm
        rw [if_neg hxy] at h
        rw [if_neg hyx]
        by_cases hlt : x.toNat < y.toNat
        · have : ¬ y.toNat < x.toNat := by omega
          simp [this]
        · simp [hlt] at h

theorem strcmpChars_trans (a b c : List Char) (hab : strcmpChars a b < 0)
    (hbc : strcmpChars b c < 0) : strcmpChars a c < 0 := by
  induction a generalizing b c with
  | nil =>
    cases c with
    | nil =>
      cases b with
      | nil => simp [strcmpChars] at hab
      | cons y ys => simp [strcmpChars] at hbc
    | cons z zs => simp [strcmpChars]
  | cons x xs ih =>
    cases b with
    | nil => simp [strcmpChars] at hab
    | cons y ys =>
      cases c with
      | nil => simp [strcmpChars] at hbc
      | cons z zs =>
        simp only [strcmpChars] at hab hbc ⊢
        by_cases hxy : x = y
        · subst hxy
          simp only [if_true] at hab
          by_cases hxz : x = z
          · subst hxz
            simp only [if_true] at hbc ⊢
            exact ih ys zs hab hbc
          · rw [if_neg hxz] at hbc ⊢
            exact hbc
        · rw [if_neg hxy] at hab
          have hlt : x.toNat < y.toNat := by
            by_contra hn
            simp [hn] at hab
          by_cases hyz : y = z
          · subst hyz
            rw [if_neg hxy]
            simp [hlt]
          · rw [if_neg hyz] at hbc
            have hlt2 : y.toNat < z.toNat := by
              by_contra hn
              simp [hn] at hbc
            have hxz : ¬ x = z := by
              intro e
              rw [e] at hlt
              omega
            rw [if_neg hxz]
            have : x.toNat < z.toNat := by omega
            simp [this]

/-- A string not above `b` is below whatever `b` is below. -/
theorem strcmpChars_le_lt (a b c : List Char) (hab : ¬ strcmpChars b a < 0)
    (hbc : strcmpChars b c < 0) : strcmpChars a c < 0 := by
  rcases strcmpChars_trichotomy a b with h | h | h
  · exact strcmpChars_trans a b c h hbc
  · rw [h]; exact hbc
  · exact absurd h hab

/-! ## The lookup -/

theorem sUtiExtensions_sorted : Sorted sUtiExtensions := by
  decide

theorem pairwise_get? {α : Type} {R : α → α → Prop} {l : List α} (h : l.Pairwise R)
    (i j : Nat) (a b : α) (hij : i < j) (ha : l.get? i = some a) (hb : l.get? j = some b) :
    R a b := by
  induction l generalizing i j with
  | nil => simp at ha
  | cons x xs ih =>
    rw [List.pairwise_cons] at h
    cases j with
    | zero => omega
    | succ j =>
      cases i with
      | zero =>
        simp only [List.get?_cons_zero, Option.some.injEq] at ha
        simp only [List.get?_cons_succ] at hb
        rw [← ha]
        exact h.1 b (List.get?_mem hb)
      | succ i =>
        simp only [List.get?_cons_succ] at ha hb
        exact ih h.2 i j (by omega) ha hb

/-- What the loop of `std::lower_bound` returns on a sorted table: the index
that parts the entries below `val` from the others. -/
theorem lower_bound_loop_spec (table : List UtiExtension) (val : List Char)
    (hs : Sorted table) (fuel first len : Nat)
    (hfuel : len ≤ fuel) (hlen : first + len ≤ table.length)
    (hlo : ∀ i e, i < first → table.get? i = some e → FindUti.lt_entry_val e val = true)
    (hhi : ∀ i e, first + len ≤ i → table.get? i = some e →
      FindUti.lt_entry_val e val = false) :
    lower_bound_loop table val fuel first len ≤ table.length ∧
    (∀ i e, i < lower_bound_loop table val fuel first len → table.get? i = some e →
      FindUti.lt_entry_val e val = true) ∧
    (∀ i e, lower_bound_loop table val fuel first len ≤ i → table.get? i = some e →
      FindUti.lt_entry_val e val = false) := by
  induction fuel generalizing first len with
  | zero =>
    have h0 : len = 0 := by omega
    subst h0
    simp only [lower_bound_loop]
    exact ⟨by omega, hlo, fun i e hi he => hhi i e (by omega) he⟩
  | succ fuel ih =>
    simp only [lower_bound_loop]
    by_cases h0 : len = 0
    · subst h0
      simp only [if_true]
      exact ⟨by omega, hlo, fun i e hi he => hhi i e (by omega) he⟩
    · rw [if_neg h0]
      have hhalf : len / 2 < len := Nat.div_lt_self (by omega) (by decide)
      have hmid : first + len / 2 < table.length := by omega
      obtain ⟨e, he⟩ : ∃ e, table.get? (first + len / 2) = some e :=
        ⟨table.get ⟨_, hmid⟩, List.get?_eq_get hmid⟩
      simp only [he]
      by_cases hcmp : FindUti.lt_entry_val e val = true
      · rw [if_pos hcmp]
        apply ih (first + len / 2 + 1) (len - len / 2 - 1) (by omega) (by omega)
        · intro i a hi ha
          by_cases him : i = first + len / 2
          · rw [him, he] at ha
            rw [← Option.some.inj ha]
            exact hcmp
          · have hR := pairwise_get? hs i (first + len / 2) a e (by omega) ha he
            simp only [FindUti.lt_entry_val, decide_eq_true_eq] at hcmp ⊢
            exact strcmpChars_trans _ _ _ hR hcmp
        · intro i a hi ha
          exact hhi i a (by omega) ha
      · rw [if_neg hcmp]
        apply ih first (len / 2) (by omega) (by omega) hlo
        intro i a hi ha
        by_cases him : i = first + len / 2
        · rw [him, he] at ha
          rw [← Option.some.inj ha]
          simpa using hcmp
        · have hR := pairwise_get? hs (first + len / 2) i e a (by omega) he ha
          cases hc : FindUti.lt_entry_val a val with
          | false => rfl
          | true =>
            exfalso
            apply hcmp
            simp only [FindUti.lt_entry_val, decide_eq_true_eq] at hc ⊢
            exact strcmpChars_trans _ _ _ hR hc

/-- On a sorted table `findExtensions` hits an entry whose identifier is the
queried string, and yields the bundle of that entry. -/
theorem findExtensions_hit (table : List UtiExtension) (val : List Char) (hs : Sorted table)
    (e : UtiExtension) (he : e ∈ table) (hkey : cstr (literal e.uti) = cstr val) :
    findExtensions table val = (true, e.extensions.map literal) := by
  obtain ⟨hr, hlo, hhi⟩ := lower_bound_loop_spec table val hs table.length 0 table.length
    (le_refl _) (by omega) (fun i e hi _ => absurd hi (by omega))
    (fun i a hi ha => by
      have := List.get?_eq_some.mp ha
      obtain ⟨hlt, _⟩ := this
      omega)
  obtain ⟨j, hj⟩ := List.mem_iff_get?.mp he
  have hej : FindUti.lt_entry_val e val = false := by
    simp [FindUti.lt_entry_val, strcmp, hkey, strcmpChars_self]
  have hrj : lower_bound table val ≤ j := by
    by_contra hn
    have := hlo j e (by unfold lower_bound at hn; omega) hj
    rw [hej] at this
    exact Bool.noConfusion this
  have hjl : j < table.length := (List.get?_eq_some.mp hj).1
  have hrl : lower_bound table val < table.length := by omega
  obtain ⟨a, ha⟩ : ∃ a, table.get? (lower_bound table val) = some a :=
    ⟨table.get ⟨_, hrl⟩, List.get?_eq_get hrl⟩
  have haval : FindUti.lt_entry_val a val = false := hhi _ a (le_refl _) ha
  have heq : lower_bound table val = j := by
    by_contra hne
    have hR := pairwise_get? hs (lower_bound table val) j a e (by omega) ha hj
    simp only [FindUti.lt_entry_val, decide_eq_false_iff_not, strcmp] at haval
    apply haval
    rw [← hkey]
    exact hR
  rw [heq, hj] at ha
  have hae : e = a := Option.some.inj ha
  subst hae
  unfold findExtensions
  simp only [heq, hj]
  have hve : FindUti.lt_val_entry val e = false := by
    simp [FindUti.lt_val_entry, strcmp, hkey, strcmpChars_self]
  simp [hve]

/-- On a sorted table `findExtensions` misses, and leaves the queried string,
when no entry has it as identifier. -/
theorem findExtensions_miss (table : List UtiExtension) (val : List Char) (hs : Sorted table)
    (hkey : ∀ e ∈ table, cstr (literal e.uti) ≠ cstr val) :
    findExtensions table val = (false, some val) := by
  obtain ⟨_, _, hhi⟩ := lower_bound_loop_spec table val hs table.length 0 table.length
    (le_refl _) (by omega) (fun i e hi _ => absurd hi (by omega))
    (fun i a hi ha => by
      have := List.get?_eq_some.mp ha
      obtain ⟨hlt, _⟩ := this
      omega)
  unfold findExtensions
  cases ha : table.get? (lower_bound table val) with
  | none => simp only [ha]
  | some a =>
    have haval : FindUti.lt_entry_val a val = false := hhi _ a (le_refl _) ha
    have hmem : a ∈ table := List.get?_mem ha
    have hlt : FindUti.lt_val_entry val a = true := by
      simp only [FindUti.lt_entry_val, decide_eq_false_iff_not, strcmp] at haval
      simp only [FindUti.lt_val_entry, decide_eq_true_eq, strcmp]
      rcases strcmpChars_trichotomy (cstr val) (cstr (literal a.uti)) with h | h | h
      · exact h
      · exact absurd h.symm (hkey a hmem)
      · exact absurd h haval
    simp only [ha, hlt]
    rfl

/-! ## Bundles -/

/-- Every bundle of the table but that of `com.apple.macpaint-image` is terminated. -/
theorem table_bundles_terminated :
    ∀ e ∈ sUtiExtensions, e.uti ≠ "com.apple.macpaint-image" →
      ∀ b, e.extensions = some b → Terminated b := by
  decide

theorem cstr_append_nul (l r : List Char) (h : NUL ∉ l) : cstr (l ++ NUL :: r) = l := by
  induction l with
  | nil => simp [cstr]
  | cons x xs ih =>
    have hx : x ≠ NUL := fun e => h (by simp [e])
    have hxs : NUL ∉ xs := fun e => h (by simp [e])
    have := ih hxs
    simp only [cstr] at this ⊢
    simp only [List.cons_append, List.takeWhile_cons, hx, ne_eq, not_false_eq_true,
      decide_True, ite_true, this]

theorem cstr_literal (s : String) (h : NUL ∉ s.toList) : cstr (literal s) = s.toList := by
  unfold literal
  exact cstr_append_nul s.toList [] h

theorem encode_cons (s : String) (rest : List String) :
    encode (s :: rest) = s.toList ++ NUL :: encode rest := by
  simp [encode]

/-- On the array of a terminated bundle the loop of `appendExtensions` ends,
having inserted the listed extensions in order. -/
theorem appendExtensionsLoop_encode (exts : List String) (hp : ∀ s ∈ exts, ProperExt s)
    (mStrings : List String) (fuel : Nat) (hfuel : exts.length < fuel) :
    UtiExtensions.appendExtensionsLoop fuel mStrings (encode exts) =
      Run.done (exts.foldl (fun m s => setInsert s m) mStrings) := by
  induction exts generalizing mStrings fuel with
  | nil =>
    cases fuel with
    | zero => simp at hfuel
    | succ fuel => simp [UtiExtensions.appendExtensionsLoop, encode]
  | cons s rest ih =>
    cases fuel with
    | zero => simp at hfuel
    | succ fuel =>
      obtain ⟨hne, hnul⟩ := hp s (by simp)
      rw [encode_cons]
      cases hs : s.toList with
      | nil => exact absurd hs hne
      | cons c cs =>
        have hc : c ≠ NUL := fun e => hnul (by rw [hs, e]; simp)
        have hcstr : cstr (c :: cs ++ NUL :: encode rest) = s.toList := by
          rw [← hs]; exact cstr_append_nul s.toList (encode rest) hnul
        have hmk : String.mk s.toList = s := rfl
        have hlen : s.length = s.toList.length := rfl
        have hdrop : (c :: cs ++ NUL :: encode rest).drop (s.toList.length + 1)
            = encode rest := by
          rw [← hs]
          have : s.toList ++ NUL :: encode rest = (s.toList ++ [NUL]) ++ encode rest := by simp
          rw [this]
          exact List.drop_left' (by simp)
        have hin : NUL ∈ c :: cs ++ NUL :: encode rest := by simp
        simp only [UtiExtensions.appendExtensionsLoop, List.cons_append]
        rw [if_neg hc, if_neg (by simp)]
        simp only [← List.cons_append, hcstr, hmk, hlen, hdrop]
        exact ih (fun t ht => hp t (by simp [ht])) (setInsert s mStrings) fuel
          (by simp at hfuel; omega)

theorem stringLt_trichotomy (x y : String) : stringLt x y = true ∨ x = y ∨ stringLt y x = true := by
  rcases strcmpChars_trichotomy x.toList y.toList with h | h | h
  · left; simpa [stringLt] using h
  · right; left; exact String.ext h
  · right; right; simpa [stringLt] using h

/-- The elements of a set after an insertion. -/
theorem mem_setInsert (x y : String) (m : List String) :
    x ∈ setInsert y m ↔ x = y ∨ x ∈ m := by
  induction m with
  | nil => simp [setInsert]
  | cons z zs ih =>
    simp only [setInsert]
    split
    · simp
    · split
      · simp only [List.mem_cons, ih]
        tauto
      · rename_i h1 h2
        have hyz : y = z := by
          rcases stringLt_trichotomy y z with h | h | h
          · exact absurd h h1
          · exact h
          · exact absurd h h2
        subst hyz
        simp

theorem mem_foldl_setInsert (x : String) (exts m : List String) :
    x ∈ exts.foldl (fun m s => setInsert s m) m ↔ x ∈ exts ∨ x ∈ m := by
  induction exts generalizing m with
  | nil => simp
  | cons s rest ih =>
    simp only [List.foldl_cons, ih, mem_setInsert, List.mem_cons]
    tauto

/-! ## The constructor on identifiers that expose their characters -/

theorem table_keys_without_nul : ∀ e ∈ sUtiExtensions, NUL ∉ e.uti.toList := by
  decide

theorem literal_injective (a b : String) (h : literal a = literal b) : a = b := by
  unfold literal at h
  exact String.ext (List.append_cancel_right h)

theorem length_le_encode (exts : List String) : exts.length < (encode exts).length := by
  induction exts with
  | nil => simp [encode]
  | cons s rest ih =>
    rw [encode_cons]
    simp only [List.length_append, List.length_cons]
    omega

/-- On a terminated bundle `appendExtensions` ends, having inserted the listed extensions. -/
theorem appendExtensions_terminated (self : UtiExtensions) (b : String) (hT : Terminated b) :
    self.appendExtensions (literal b) =
      Run.done { self with
        mStrings := (listed b).foldl (fun m s => setInsert s m) self.mStrings } := by
  unfold UtiExtensions.appendExtensions
  rw [hT.1, appendExtensionsLoop_encode (listed b) hT.2 self.mStrings _
    (Nat.lt_succ_of_lt (length_le_encode _))]

/-- One round of the constructor for an identifier that exposes its characters. -/
theorem addUti_direct (self : UtiExtensions) (s : String) (hs : NUL ∉ s.toList)
    (hmac : s ≠ "com.apple.macpaint-image") :
    ∃ r, self.addUti (CFString.direct s) = Run.done r ∧ r.mStorage = self.mStorage ∧
      ∀ x, x ∈ r.mStrings ↔
        (x ∈ self.mStrings ∨
          ∃ e ∈ sUtiExtensions, e.uti = s ∧ ∃ b, e.extensions = some b ∧ x ∈ listed b) := by
  unfold UtiExtensions.addUti
  simp only [CFString.direct]
  by_cases h : ∃ e ∈ sUtiExtensions, e.uti = s
  · obtain ⟨e, he, hes⟩ := h
    have hhit := findExtensions_hit sUtiExtensions (literal s) sUtiExtensions_sorted e he
      (by rw [hes])
    have huniq : ∀ e2 ∈ sUtiExtensions, e2.uti = s → e2.extensions = e.extensions := by
      intro e2 he2 hes2
      have h2 := findExtensions_hit sUtiExtensions (literal s) sUtiExtensions_sorted e2 he2
        (by rw [hes2])
      rw [hhit] at h2
      have h3 : e.extensions.map literal = e2.extensions.map literal := (Prod.mk.inj h2).2
      cases hx : e.extensions with
      | none =>
        rw [hx] at h3
        cases hy : e2.extensions with
        | none => rfl
        | some b2 => rw [hy] at h3; simp at h3
      | some b =>
        rw [hx] at h3
        cases hy : e2.extensions with
        | none => rw [hy] at h3; simp at h3
        | some b2 =>
          rw [hy] at h3
          simp only [Option.map_some', Option.some.injEq] at h3
          rw [literal_injective b b2 h3]
    rw [hhit]
    cases hx : e.extensions with
    | none =>
      refine ⟨self, rfl, rfl, fun x => ⟨fun hxm => Or.inl hxm, ?_⟩⟩
      rintro (hxm | ⟨e2, he2, hes2, b, hb, _⟩)
      · exact hxm
      · rw [huniq e2 he2 hes2, hx] at hb
        exact Option.noConfusion hb
    | some b =>
      have hT := table_bundles_terminated e he (by rw [hes]; exact hmac) b hx
      simp only [Option.map_some']
      rw [appendExtensions_terminated self b hT]
      refine ⟨_, rfl, rfl, fun x => ?_⟩
      simp only [mem_foldl_setInsert]
      constructor
      · rintro (hxl | hxm)
        · exact Or.inr ⟨e, he, hes, b, hx, hxl⟩
        · exact Or.inl hxm
      · rintro (hxm | ⟨e2, he2, hes2, b2, hb2, hxl⟩)
        · exact Or.inr hxm
        · rw [huniq e2 he2 hes2, hx] at hb2
          rw [Option.some.inj hb2]
          exact Or.inl hxl
  · push_neg at h
    have hmiss := findExtensions_miss sUtiExtensions (literal s) sUtiExtensions_sorted
      (by
        intro e he heq
        rw [cstr_literal e.uti (table_keys_without_nul e he), cstr_literal s hs] at heq
        exact h e he (String.ext heq))
    rw [hmiss]
    refine ⟨_, rfl, rfl, fun x => ⟨fun hxm => Or.inl hxm, ?_⟩⟩
    rintro (hxm | ⟨e, he, hes, _⟩)
    · exact hxm
    · exact absurd hes (h e he)

/-- The loop of the constructor over identifiers that expose their characters. -/
theorem addUtis_direct (ids : List String) (self : UtiExtensions)
    (hs : ∀ s ∈ ids, NUL ∉ s.toList) (hmac : "com.apple.macpaint-image" ∉ ids) :
    ∃ r, self.addUtis (ids.map CFString.direct) = Run.done r ∧ r.mStorage = self.mStorage ∧
      ∀ x, x ∈ r.mStrings ↔
        (x ∈ self.mStrings ∨
          ∃ e ∈ sUtiExtensions, e.uti ∈ ids ∧ ∃ b, e.extensions = some b ∧ x ∈ listed b) := by
  induction ids generalizing self with
  | nil =>
    exact ⟨self, rfl, rfl, fun x => by simp⟩
  | cons s rest ih =>
    obtain ⟨r1, h1, hst1, hm1⟩ := addUti_direct self s (hs s (by simp))
      (fun e => hmac (by simp [e]))
    obtain ⟨r2, h2, hst2, hm2⟩ := ih r1 (fun t ht => hs t (by simp [ht]))
      (fun e => hmac (by simp [e]))
    refine ⟨r2, ?_, by rw [hst2, hst1], fun x => ?_⟩
    · simp only [List.map_cons, UtiExtensions.addUtis, h1]
      exact h2
    · rw [hm2, hm1]
      constructor
      · rintro ((hx | ⟨e, he, hes, hb⟩) | ⟨e, he, hes, hb⟩)
        · exact Or.inl hx
        · exact Or.inr ⟨e, he, by simp [hes], hb⟩
        · exact Or.inr ⟨e, he, by simp [hes], hb⟩
      · rintro (hx | ⟨e, he, hes, hb⟩)
        · exact Or.inl (Or.inl hx)
        · rcases List.mem_cons.mp hes with h | h
          · exact Or.inl (Or.inr ⟨e, he, h, hb⟩)
          · exact Or.inr ⟨e, he, h, hb⟩

/-- The set and the sequence the constructor resolves for identifiers that
expose their characters, `com.apple.macpaint-image` not among them: the
extensions listed in the bundles of the identifiers that are keys of the table,
and the fixed extras; the sequence is the set followed by the null pointer. -/
theorem new_direct (ids : List String)
    (hs : ∀ s ∈ ids, NUL ∉ s.toList) (hmac : "com.apple.macpaint-image" ∉ ids) :
    ∃ r, UtiExtensions.new (ids.map CFString.direct) = Run.done r ∧
      r.mStorage = r.mStrings.map some ++ [none] ∧
      ∀ x, x ∈ r.mStrings ↔
        (x ∈ fixedExtras ∨
          ∃ e ∈ sUtiExtensions, e.uti ∈ ids ∧ ∃ b, e.extensions = some b ∧ x ∈ listed b) := by
  obtain ⟨r1, h1, hst1, hm1⟩ := addUtis_direct ids
    { mStorage := [], mStrings := [], stderr := [] } hs hmac
  have hT1 : Terminated "eps\x00epi\x00epsf\x00epsi\x00ps\x00" := by decide
  have hT2 : Terminated "xbm\x00cur\x00" := by decide
  have hl1 : listed "eps\x00epi\x00epsf\x00epsi\x00ps\x00" =
      ["eps", "epi", "epsf", "epsi", "ps"] := by decide
  have hl2 : listed "xbm\x00cur\x00" = ["xbm", "cur"] := by decide
  unfold UtiExtensions.new
  rw [h1]
  simp only [appendExtensions_terminated _ _ hT1, appendExtensions_terminated _ _ hT2]
  refine ⟨_, rfl, ?_, fun x => ?_⟩
  · simp only [UtiExtensions.finish, hst1, List.nil_append]
  · simp only [UtiExtensions.finish, mem_foldl_setInsert, hm1, hl1, hl2, fixedExtras,
      List.mem_cons, List.mem_singleton, List.not_mem_nil, or_false, false_or]
    tauto

/-! ## The step bound of the model is never reached -/

theorem appendExtensionsLoop_fuel (fuel : Nat) (mStrings : List String) (extList : List Char)
    (h : extList.length < fuel) :
    UtiExtensions.appendExtensionsLoop fuel mStrings extList ≠ Run.outOfFuel := by
  induction fuel generalizing mStrings extList with
  | zero => omega
  | succ fuel ih =>
    cases extList with
    | nil => simp [UtiExtensions.appendExtensionsLoop]
    | cons c cs =>
      simp only [UtiExtensions.appendExtensionsLoop]
      split
      · simp
      · split
        · simp
        · apply ih
          simp only [List.length_drop, List.length_cons] at h ⊢
          omega

theorem appendExtensions_fuel (self : UtiExtensions) (extList : List Char) :
    self.appendExtensions extList ≠ Run.outOfFuel := by
  have h := appendExtensionsLoop_fuel (extList.length + 1) self.mStrings extList (by omega)
  unfold UtiExtensions.appendExtensions
  split
  · simp
  · simp
  · rename_i heq
    exact absurd heq h

theorem addUti_fuel (self : UtiExtensions) (uti : CFString) :
    self.addUti uti ≠ Run.outOfFuel := by
  unfold UtiExtensions.addUti
  simp only []
  split
  · simp
  · split
    · exact appendExtensions_fuel _ _
    · simp
    · simp

theorem addUtis_fuel (arrayRef : List CFString) (self : UtiExtensions) :
    self.addUtis arrayRef ≠ Run.outOfFuel := by
  induction arrayRef generalizing self with
  | nil => simp [UtiExtensions.addUtis]
  | cons uti rest ih =>
    simp only [UtiExtensions.addUtis]
    split
    · exact ih _
    · simp
    · rename_i heq
      exact absurd heq (addUti_fuel self uti)

/-- The constructor always ends within the step bound of the model: it yields
its object or reads past a character array. -/
theorem new_fuel (arrayRef : List CFString) : UtiExtensions.new arrayRef ≠ Run.outOfFuel := by
  unfold UtiExtensions.new
  split
  · split
    · split
      · simp
      · simp
      · rename_i heq
        exact absurd heq (appendExtensions_fuel _ _)
    · simp
    · rename_i heq
      exact absurd heq (appendExtensions_fuel _ _)
  · simp
  · rename_i heq
    exact absurd heq (addUtis_fuel arrayRef _)

/-! ## Reading rows -/

namespace CoreGraphicsInput

/-- C1, at a failing input: on the reader opened on the two-page example (rows
of 12 bytes, buffer of 48 bytes) the request for rows 2 to 5 has
`yend * rowbytes = 60 > 48`, yet `read_native_scanlines` does not fail: both
tests pass (`24 ≤ 48`, `36 ≤ 48`) and `CFDataGetBytes` is handed the range
`(24, 36)`, which ends 12 bytes past the buffer. -/
theorem read_rows_past_end_not_rejected :
    IsOpen opened ∧ opened.m_image = some page0 ∧ page0.bytesPerRow = 12 ∧
    page0.data = some (List.range 48) ∧ (5 : Int) * 12 > 48 ∧
    ∀ ndebug, (read_native_scanlines ndebug opened 2 5 0).1 = ReadOutcome.overrun 24 36 :=
  ⟨open_ok_isOpen exampleFiles new "a" ImageSpec.empty (by decide), by decide⟩

/-- C2, at a failing input: after rows of page 0 were read, a successful forward
seek to page 1 keeps the buffer of page 0, and the next read serves its bytes
`0 .. 15`, not the bytes `100 .. 115` of page 1. -/
theorem forward_seek_serves_stale_buffer :
    IsOpen opened ∧ opened.m_subimage = 0 ∧
    ∀ ndebug,
      (read_native_scanlines ndebug opened 0 1 0).2.m_data = page0.data ∧
      (seek_subimage (read_native_scanlines ndebug opened 0 1 0).2 1 0 ImageSpec.empty).ok
        = true ∧
      (seek_subimage (read_native_scanlines ndebug opened 0 1 0).2 1 0
        ImageSpec.empty).self.m_image = some page1 ∧
      page1.data = some ((List.range 16).map (fun b => b + 100) ++
        (List.range 16).map (fun b => b + 116)) ∧
      (read_native_scanlines ndebug
        (seek_subimage (read_native_scanlines ndebug opened 0 1 0).2 1 0
          ImageSpec.empty).self 0 1 0).1 = ReadOutcome.copied (List.range 16) :=
  ⟨open_ok_isOpen exampleFiles new "a" ImageSpec.empty (by decide), by decide⟩

/-- C3, counterexample: with assertions compiled in, a reader on a 4x4 page of
three 8-bit channels whose rows are padded to 16 bytes (buffer of 64 bytes) is
asked for rows 3 to 4, for which `yend * rowbytes = 64` fits the buffer; the
read does not succeed, the `assert` on the row stride aborts it. -/
theorem read_rows_aborts_on_padded_rows :
    IsOpen onPadded ∧ onPadded.m_image = some paddedPage ∧ onPadded.m_subimage = 0 ∧
    paddedPage.bytesPerRow = 16 ∧ paddedPage.data = some (List.range 64) ∧
    (0 : Int) ≤ 3 ∧ (3 : Int) ≤ 4 ∧ (4 : Int) * 16 ≤ 64 ∧
    (read_native_scanlines false onPadded 3 4 0).1 = ReadOutcome.aborted :=
  ⟨seek_first_isOpen _ ImageSpec.empty rfl (by decide), by decide⟩

/-- C3, amended: when the reader holds page `img` with stride `r`, its buffer
(held, or still to be fetched from the page) is `B`, the `assert` on the
stride is compiled out or holds, `0 ≤ ybegin ≤ yend` with `yend` an `int`,
and `yend * r ≤ |B| < 2^64`, then `read_native_scanlines` returns `true`
having written exactly `B[ybegin*r .. yend*r)`, and holds `B` afterwards; when
`yend * r = |B|` and `ybegin = yend - 1` these bytes are the last row of `B`. -/
theorem read_rows_in_range (ndebug : Bool) (self : CoreGraphicsInput) (img : CGImage)
    (B : List Nat) (ybegin yend z : Int)
    (himg : self.m_image = some img)
    (hB : self.m_data = some B ∨ (self.m_data = none ∧ img.data = some B))
    (hassert : ndebug = true ∨ img.bytesPerRow = expectedRowbytes self)
    (h0 : 0 ≤ ybegin) (hle : ybegin ≤ yend) (hint : yend < 2 ^ 31)
    (hfit : yend * img.bytesPerRow ≤ B.length) (hL : B.length < 2 ^ 64) :
    (read_native_scanlines ndebug self ybegin yend z).1 =
      ReadOutcome.copied
        ((B.drop (ybegin.toNat * img.bytesPerRow)).take
          ((yend - ybegin).toNat * img.bytesPerRow)) ∧
    (read_native_scanlines ndebug self ybegin yend z).2.m_data = some B ∧
    (yend * img.bytesPerRow = B.length → ybegin = yend - 1 →
      (read_native_scanlines ndebug self ybegin yend z).1 =
        ReadOutcome.copied (B.drop (B.length - img.bytesPerRow))) := by
  have hd := fetchData_data self img B himg hB
  have hi := (fetchData_fields self).1
  have hrow : CGImageGetBytesPerRow (fetchData self).m_image = img.bytesPerRow := by
    rw [hi, himg]; rfl
  have hb : toSize ybegin = ybegin.toNat := toSize_of_nonneg ybegin h0 (by omega)
  have hdiff : toSize (toInt32 (yend - ybegin)) = (yend - ybegin).toNat := by
    rw [toInt32_of_range _ (by omega) (by omega)]
    exact toSize_of_nonneg _ (by omega) (by omega)
  obtain ⟨yb, rfl⟩ := Int.eq_ofNat_of_zero_le h0
  obtain ⟨ye, rfl⟩ := Int.eq_ofNat_of_zero_le (le_trans h0 hle)
  have hle2 : yb ≤ ye := by exact_mod_cast hle
  have hfit2 : ye * img.bytesPerRow ≤ B.length := by exact_mod_cast hfit
  have hsub : ((ye : Int) - (yb : Int)).toNat = ye - yb := by omega
  have hstart_le : yb * img.bytesPerRow ≤ B.length :=
    le_trans (Nat.mul_le_mul_right _ hle2) hfit2
  have hlen_le : (ye - yb) * img.bytesPerRow ≤ B.length :=
    le_trans (Nat.mul_le_mul_right _ (Nat.sub_le _ _)) hfit2
  have hsum : yb * img.bytesPerRow + (ye - yb) * img.bytesPerRow = ye * img.bytesPerRow := by
    rw [← Nat.add_mul]; congr 1; omega
  have hmod1 : yb * img.bytesPerRow % SIZE_MOD = yb * img.bytesPerRow :=
    Nat.mod_eq_of_lt (by unfold SIZE_MOD; omega)
  have hmod2 : (ye - yb) * img.bytesPerRow % SIZE_MOD = (ye - yb) * img.bytesPerRow :=
    Nat.mod_eq_of_lt (by unfold SIZE_MOD; omega)
  have hnoabort : ¬ (!ndebug ∧ img.bytesPerRow ≠ expectedRowbytes (fetchData self)) := by
    rw [expectedRowbytes_fetchData]
    rcases hassert with h | h
    · simp [h]
    · simp [h]
  have key : read_native_scanlines ndebug self (yb : Int) (ye : Int) z =
      (ReadOutcome.copied
        ((B.drop (yb * img.bytesPerRow)).take ((ye - yb) * img.bytesPerRow)),
        fetchData self) := by
    unfold read_native_scanlines
    simp only [hd, hrow, hb, hdiff, hsub, Int.toNat_ofNat, hmod1, hmod2]
    rw [if_neg hnoabort, if_neg (by omega), if_neg (by omega)]
    unfold CFDataGetBytes
    rw [if_pos (by omega)]
  rw [key]
  simp only [Int.toNat_ofNat, hsub]
  refine ⟨trivial, hd, ?_⟩
  intro hfull hprev
  have hfull2 : ye * img.bytesPerRow = B.length := by exact_mod_cast hfull
  have hye : ye = yb + 1 := by omega
  subst hye
  have h1 : yb * img.bytesPerRow = B.length - img.bytesPerRow := by
    rw [← hfull2, Nat.add_mul]; omega
  have h2 : (yb + 1 - yb) * img.bytesPerRow = img.bytesPerRow := by simp
  rw [h2, h1]
  congr 1
  apply List.take_of_length_le
  rw [List.length_drop]
  omega

/-- C3, witness: rows 3 to 4 of the two-page example, read with assertions
compiled in, are the last 12 bytes of the buffer of page 0. -/
theorem read_rows_in_range_witness :
    opened.m_image = some page0 ∧
    (opened.m_data = none ∧ page0.data = some (List.range 48)) ∧
    page0.bytesPerRow = expectedRowbytes opened ∧
    (read_native_scanlines false opened 3 4 0).1 =
      ReadOutcome.copied [36, 37, 38, 39, 40, 41, 42, 43, 44, 45, 46, 47] :=
  ⟨by decide, by decide, by decide,
    ((read_rows_in_range false opened page0 (List.range 48) 3 4 0 (by decide)
      (Or.inr (by decide)) (Or.inr (by decide)) (by decide) (by decide) (by decide)
      (by decide) (by decide)).2.2 (by decide) (by decide)).trans (by decide)⟩

end CoreGraphicsInput

/-! ## Seeking -/

namespace CoreGraphicsInput

/-- C4: on a reader holding container `src`, a seek to a page `n ≥ 0` other
than the cursor, which decodes to `img` with a bit depth of 8, 16 or 32,
succeeds after one native decode, leaves `img` as the decoded page, returns a
descriptor with the width, height, sample type, channel count and alpha index
derived from `img`, with the `oiio:Movie` attribute exactly when `src` has more
than one page, and leaves the cursor at `n` and the cached descriptor equal to
the returned one. -/
theorem seek_decodes_page (self : CoreGraphicsInput) (src : CGImageSource) (img : CGImage)
    (n : Int) (newspec : ImageSpec)
    (hsrc : self.m_source = some src) (h0 : 0 ≤ n) (hne : n ≠ self.m_subimage)
    (himg : src.pages.get? n.toNat = some (some img))
    (hbits : img.bitsPerComponent = 8 ∨ img.bitsPerComponent = 16 ∨
      img.bitsPerComponent = 32) :
    (seek_subimage self n 0 newspec).ok = true ∧
    (seek_subimage self n 0 newspec).self.m_image = some img ∧
    (seek_subimage self n 0 newspec).self.decodeCount = self.decodeCount + 1 ∧
    (seek_subimage self n 0 newspec).newspec.width = toInt32 img.width ∧
    (seek_subimage self n 0 newspec).newspec.height = toInt32 img.height ∧
    some (seek_subimage self n 0 newspec).newspec.format =
      specSampleType img.bitsPerComponent img.floatComponents ∧
    (seek_subimage self n 0 newspec).newspec.nchannels = specChannelCount img.alphaInfo ∧
    (seek_subimage self n 0 newspec).newspec.alpha_channel = specAlphaIndex img.alphaInfo ∧
    ((∃ v, ("oiio:Movie", v) ∈ (seek_subimage self n 0 newspec).newspec.extra_attribs) ↔
      1 < src.pages.length) ∧
    (1 < src.pages.length →
      (seek_subimage self n 0 newspec).newspec.hasAttribute "oiio:Movie" 1) ∧
    (seek_subimage self n 0 newspec).self.current_subimage = n ∧
    (seek_subimage self n 0 newspec).self.m_spec = (seek_subimage self n 0 newspec).newspec :=
  seek_page self src img n newspec hsrc h0 hne himg hbits

/-- C4, witness: on the two-page example `open_` returns 3 channels and no
alpha, and the seek to page 1 returns 4 channels, alpha index 4, half floats
and the `oiio:Movie` attribute. -/
theorem seek_decodes_page_witness :
    (open_ exampleFiles new "a" ImageSpec.empty).ok = true ∧
    (open_ exampleFiles new "a" ImageSpec.empty).newspec.nchannels = 3 ∧
    (open_ exampleFiles new "a" ImageSpec.empty).newspec.alpha_channel = -1 ∧
    opened.m_source = some twoPages ∧ (1 : Int) ≠ opened.m_subimage ∧
    (seek_subimage opened 1 0 ImageSpec.empty).ok = true ∧
    (seek_subimage opened 1 0 ImageSpec.empty).newspec.nchannels = 4 ∧
    (seek_subimage opened 1 0 ImageSpec.empty).newspec.alpha_channel = 4 ∧
    (seek_subimage opened 1 0 ImageSpec.empty).newspec.format = TypeDesc.HALF ∧
    (seek_subimage opened 1 0 ImageSpec.empty).newspec.hasAttribute "oiio:Movie" 1 ∧
    (seek_subimage opened 1 0 ImageSpec.empty).self.current_subimage = 1 :=
  have h := seek_decodes_page opened twoPages page1 1 ImageSpec.empty (by decide) (by decide)
    (by decide) (by decide) (by decide)
  ⟨by decide, by decide, by decide, by decide, by decide, h.1, h.2.2.2.2.2.2.1,
    h.2.2.2.2.2.2.2.1, Option.some.inj (h.2.2.2.2.2.1.trans (by decide)),
    h.2.2.2.2.2.2.2.2.2.1 (by decide), h.2.2.2.2.2.2.2.2.2.2.1⟩

/-- C5: a seek to an index `n < 0` or `n ≥` the page count of the held
container fails on every reader whose cursor is not `n` (so success outside
the pages of the container is only ever reported for the cursor itself), and
fails on every open reader. -/
theorem seek_out_of_range_fails (self : CoreGraphicsInput) (n m : Int) (newspec : ImageSpec)
    (hout : n < 0 ∨ (CGImageSourceGetCount self.m_source : Int) ≤ n) :
    (n ≠ self.m_subimage → (seek_subimage self n m newspec).ok = false) ∧
    (IsOpen self → (seek_subimage self n m newspec).ok = false) := by
  have key : n ≠ self.m_subimage → (seek_subimage self n m newspec).ok = false := by
    intro hne
    cases hok : (seek_subimage self n m newspec).ok with
    | false => rfl
    | true =>
      have hr := seek_ok_in_range self n m newspec hok hne
      omega
  refine ⟨key, ?_⟩
  rintro ⟨src, hsrc, hlo, hhi⟩
  apply key
  rw [hsrc] at hout
  simp only [CGImageSourceGetCount] at hout
  omega

/-- C5, witness: on the reader opened on the two-page example, the seeks to
page 2 and to page -1 fail. -/
theorem seek_out_of_range_fails_witness :
    IsOpen opened ∧ (CGImageSourceGetCount opened.m_source : Int) ≤ 2 ∧
    (seek_subimage opened 2 0 ImageSpec.empty).ok = false ∧
    (seek_subimage opened (-1) 0 ImageSpec.empty).ok = false :=
  ⟨open_ok_isOpen exampleFiles new "a" ImageSpec.empty (by decide), by decide,
    (seek_out_of_range_fails opened 2 0 ImageSpec.empty (Or.inr (by decide))).2
      (open_ok_isOpen exampleFiles new "a" ImageSpec.empty (by decide)),
    (seek_out_of_range_fails opened (-1) 0 ImageSpec.empty (Or.inl (by decide))).2
      (open_ok_isOpen exampleFiles new "a" ImageSpec.empty (by decide))⟩

/-- C6: when `seek_subimage (n, m, _)` succeeds, the same call made right
after it succeeds again, returns the same descriptor, and leaves the reader
as it was, calls log included: no page is decoded and nothing is released. -/
theorem seek_idempotent (self : CoreGraphicsInput) (n m : Int) (newspec newspec2 : ImageSpec)
    (h : (seek_subimage self n m newspec).ok = true) :
    (seek_subimage (seek_subimage self n m newspec).self n m newspec2).ok = true ∧
    (seek_subimage (seek_subimage self n m newspec).self n m newspec2).newspec =
      (seek_subimage self n m newspec).newspec ∧
    (seek_subimage (seek_subimage self n m newspec).self n m newspec2).self =
      (seek_subimage self n m newspec).self ∧
    (seek_subimage (seek_subimage self n m newspec).self n m newspec2).self.decodeCount =
      (seek_subimage self n m newspec).self.decodeCount := by
  obtain ⟨h0, hm, hcur, hspec⟩ := seek_ok_cursor self n m newspec h
  subst hm
  rw [seek_same (seek_subimage self n 0 newspec).self n newspec2 h0 hcur]
  exact ⟨rfl, hspec, rfl, rfl⟩

/-- C6, witness: the seek to page 1 of the two-page example, made twice. -/
theorem seek_idempotent_witness :
    (seek_subimage opened 1 0 ImageSpec.empty).ok = true ∧
    (seek_subimage (seek_subimage opened 1 0 ImageSpec.empty).self 1 0 ImageSpec.empty).ok
      = true ∧
    (seek_subimage (seek_subimage opened 1 0 ImageSpec.empty).self 1 0
      ImageSpec.empty).newspec = (seek_subimage opened 1 0 ImageSpec.empty).newspec ∧
    (seek_subimage (seek_subimage opened 1 0 ImageSpec.empty).self 1 0 ImageSpec.empty).self =
      (seek_subimage opened 1 0 ImageSpec.empty).self ∧
    (seek_subimage (seek_subimage opened 1 0 ImageSpec.empty).self 1 0
      ImageSpec.empty).self.decodeCount = 2 :=
  have h := seek_idempotent opened 1 0 ImageSpec.empty ImageSpec.empty (by decide)
  ⟨by decide, h.1, h.2.1, h.2.2.1, h.2.2.2.trans (by decide)⟩

/-- C7, at a failing input: the reader is opened on a container whose page 0 is
the 4x4 8-bit page (cursor 0) and whose page 1 has 4 bits per component. The
forward seek to page 1 fails and leaves cursor and cached descriptor as they
were, but the decoded page is now page 1, and the next read of row 0 fetches
and serves the bytes `200 .. 205` of page 1 instead of bytes of page 0. -/
theorem failed_seek_replaces_page :
    IsOpen beforeOdd ∧ beforeOdd.m_subimage = 0 ∧ beforeOdd.m_image = some page0 ∧ beforeOdd.m_data = none ∧
    (seek_subimage beforeOdd 1 0 ImageSpec.empty).ok = false ∧
    (seek_subimage beforeOdd 1 0 ImageSpec.empty).self.m_subimage = 0 ∧
    (seek_subimage beforeOdd 1 0 ImageSpec.empty).self.m_spec = beforeOdd.m_spec ∧
    (seek_subimage beforeOdd 1 0 ImageSpec.empty).self.m_image = some oddPage ∧
    (∀ ndebug, (read_native_scanlines ndebug beforeOdd 0 1 0).1 =
      ReadOutcome.copied (List.range 12)) ∧
    (∀ ndebug,
      (read_native_scanlines ndebug (seek_subimage beforeOdd 1 0 ImageSpec.empty).self
        0 1 0).1 = ReadOutcome.copied [200, 201, 202, 203, 204, 205]) :=
  ⟨seek_first_isOpen _ ImageSpec.empty rfl (by decide), by decide⟩

/-- C8: on a reader holding container `src`, for a seek to a page `n ≥ 0`
other than the cursor that decodes to `img`: with 8 bits per component the
seek yields `UINT8` whatever the float flag; with 16 bits `HALF` when the float
flag is set and `UINT16` when not; with 32 bits `FLOAT` when set and `UINT32`
when not; with any other bit depth the seek fails. -/
theorem seek_sample_type (self : CoreGraphicsInput) (src : CGImageSource) (img : CGImage)
    (n : Int) (newspec : ImageSpec)
    (hsrc : self.m_source = some src) (h0 : 0 ≤ n) (hne : n ≠ self.m_subimage)
    (himg : src.pages.get? n.toNat = some (some img)) :
    (img.bitsPerComponent = 8 →
      (seek_subimage self n 0 newspec).ok = true ∧
      (seek_subimage self n 0 newspec).newspec.format = TypeDesc.UINT8) ∧
    (img.bitsPerComponent = 16 → img.floatComponents = true →
      (seek_subimage self n 0 newspec).ok = true ∧
      (seek_subimage self n 0 newspec).newspec.format = TypeDesc.HALF) ∧
    (img.bitsPerComponent = 16 → img.floatComponents = false →
      (seek_subimage self n 0 newspec).ok = true ∧
      (seek_subimage self n 0 newspec).newspec.format = TypeDesc.UINT16) ∧
    (img.bitsPerComponent = 32 → img.floatComponents = true →
      (seek_subimage self n 0 newspec).ok = true ∧
      (seek_subimage self n 0 newspec).newspec.format = TypeDesc.FLOAT) ∧
    (img.bitsPerComponent = 32 → img.floatComponents = false →
      (seek_subimage self n 0 newspec).ok = true ∧
      (seek_subimage self n 0 newspec).newspec.format = TypeDesc.UINT32) ∧
    (img.bitsPerComponent ≠ 8 → img.bitsPerComponent ≠ 16 → img.bitsPerComponent ≠ 32 →
      (seek_subimage self n 0 newspec).ok = false) := by
  have hgood : ∀ t, (img.bitsPerComponent = 8 ∨ img.bitsPerComponent = 16 ∨
      img.bitsPerComponent = 32) →
      specSampleType img.bitsPerComponent img.floatComponents = some t →
      (seek_subimage self n 0 newspec).ok = true ∧
      (seek_subimage self n 0 newspec).newspec.format = t := by
    intro t hb ht
    have h := seek_page self src img n newspec hsrc h0 hne himg hb
    exact ⟨h.1, Option.some.inj (h.2.2.2.2.2.1.trans ht)⟩
  refine ⟨?_, ?_, ?_, ?_, ?_, ?_⟩
  · intro hb
    exact hgood _ (Or.inl hb) (by simp [specSampleType, hb])
  · intro hb hf
    exact hgood _ (Or.inr (Or.inl hb)) (by simp [specSampleType, hb, hf])
  · intro hb hf
    exact hgood _ (Or.inr (Or.inl hb)) (by simp [specSampleType, hb, hf])
  · intro hb hf
    exact hgood _ (Or.inr (Or.inr hb)) (by simp [specSampleType, hb, hf])
  · intro hb hf
    exact hgood _ (Or.inr (Or.inr hb)) (by simp [specSampleType, hb, hf])
  · intro h8 h16 h32
    have hX := decodePage_image self src n (some img) hsrc himg
    have hD := (deriveSpec_page (some src) img).1
    have hbad : (deriveSpec (some src) (some img)).1 = false := by
      cases hd : (deriveSpec (some src) (some img)).1 with
      | false => rfl
      | true => rcases hD.mp hd with h | h | h <;> contradiction
    rw [seek_other self n newspec h0 (Ne.symm hne), hsrc, hX]
    split
    · rfl
    · rw [if_neg (by simp [hbad])]

/-- C8, witness: page 1 of the two-page example has 16 bits per component and
the float flag, and the seek to it yields `HALF`. -/
theorem seek_sample_type_witness :
    opened.m_source = some twoPages ∧ (1 : Int) ≠ opened.m_subimage ∧
    page1.bitsPerComponent = 16 ∧ page1.floatComponents = true ∧
    (seek_subimage opened 1 0 ImageSpec.empty).ok = true ∧
    (seek_subimage opened 1 0 ImageSpec.empty).newspec.format = TypeDesc.HALF :=
  ⟨by decide, by decide, by decide, by decide,
    (seek_sample_type opened twoPages page1 1 ImageSpec.empty (by decide) (by decide)
      (by decide) (by decide)).2.1 (by decide) (by decide)⟩

/-- C9: on a reader holding container `src`, for a seek to a page `n ≥ 0`
other than the cursor that decodes to `img` with a bit depth of 8, 16 or 32,
the returned descriptor has: 3 channels and no alpha index for no alpha;
4 channels and no alpha index for the two skip arrangements; 4 channels and
alpha index 4 for alpha last, premultiplied or not; 4 channels and alpha index
0 for alpha first, premultiplied or not; 1 channel and alpha index 0 for
alpha only. -/
theorem seek_alpha_layout (self : CoreGraphicsInput) (src : CGImageSource) (img : CGImage)
    (n : Int) (newspec : ImageSpec)
    (hsrc : self.m_source = some src) (h0 : 0 ≤ n) (hne : n ≠ self.m_subimage)
    (himg : src.pages.get? n.toNat = some (some img))
    (hbits : img.bitsPerComponent = 8 ∨ img.bitsPerComponent = 16 ∨
      img.bitsPerComponent = 32) :
    (seek_subimage self n 0 newspec).ok = true ∧
    (img.alphaInfo = CGImageAlphaInfo.kCGImageAlphaNone →
      (seek_subimage self n 0 newspec).newspec.nchannels = 3 ∧
      (seek_subimage self n 0 newspec).newspec.alpha_channel = -1) ∧
    (img.alphaInfo = CGImageAlphaInfo.kCGImageAlphaNoneSkipLast ∨
      img.alphaInfo = CGImageAlphaInfo.kCGImageAlphaNoneSkipFirst →
      (seek_subimage self n 0 newspec).newspec.nchannels = 4 ∧
      (seek_subimage self n 0 newspec).newspec.alpha_channel = -1) ∧
    (img.alphaInfo = CGImageAlphaInfo.kCGImageAlphaLast ∨
      img.alphaInfo = CGImageAlphaInfo.kCGImageAlphaPremultipliedLast →
      (seek_subimage self n 0 newspec).newspec.nchannels = 4 ∧
      (seek_subimage self n 0 newspec).newspec.alpha_channel = 4) ∧
    (img.alphaInfo = CGImageAlphaInfo.kCGImageAlphaFirst ∨
      img.alphaInfo = CGImageAlphaInfo.kCGImageAlphaPremultipliedFirst →
      (seek_subimage self n 0 newspec).newspec.nchannels = 4 ∧
      (seek_subimage self n 0 newspec).newspec.alpha_channel = 0) ∧
    (img.alphaInfo = CGImageAlphaInfo.kCGImageAlphaOnly →
      (seek_subimage self n 0 newspec).newspec.nchannels = 1 ∧
      (seek_subimage self n 0 newspec).newspec.alpha_channel = 0) := by
  have h := seek_page self src img n newspec hsrc h0 hne himg hbits
  have hn := h.2.2.2.2.2.2.1
  have ha := h.2.2.2.2.2.2.2.1
  rw [hn, ha]
  refine ⟨h.1, ?_, ?_, ?_, ?_, ?_⟩
  · intro e; rw [e]; exact ⟨rfl, rfl⟩
  · rintro (e | e) <;> rw [e] <;> exact ⟨rfl, rfl⟩
  · rintro (e | e) <;> rw [e] <;> exact ⟨rfl, rfl⟩
  · rintro (e | e) <;> rw [e] <;> exact ⟨rfl, rfl⟩
  · intro e; rw [e]; exact ⟨rfl, rfl⟩

/-- C9, witness: page 1 of the two-page example has alpha last, and the seek
to it yields 4 channels and alpha index 4. -/
theorem seek_alpha_layout_witness :
    opened.m_source = some twoPages ∧ (1 : Int) ≠ opened.m_subimage ∧
    page1.alphaInfo = CGImageAlphaInfo.kCGImageAlphaLast ∧
    (seek_subimage opened 1 0 ImageSpec.empty).ok = true ∧
    (seek_subimage opened 1 0 ImageSpec.empty).newspec.nchannels = 4 ∧
    (seek_subimage opened 1 0 ImageSpec.empty).newspec.alpha_channel = 4 :=
  have h := seek_alpha_layout opened twoPages page1 1 ImageSpec.empty (by decide) (by decide)
    (by decide) (by decide) (by decide)
  ⟨by decide, by decide, by decide, h.1, h.2.2.2.1 (Or.inl (by decide))⟩

end CoreGraphicsInput

/-! ## Resolving extensions -/

/-- C10, at a failing input: for the identifier list holding only
`com.apple.macpaint-image` the lookup hits the bundle `"mac\0ptng\0pnt"`, whose
array ends right after the terminator of `pnt`; after inserting `mac`, `ptng`
and `pnt` the loop of `appendExtensions` reads the character past the end of
the array, so the resolved set is not determined by the table. For the list
holding only `com.compuserve.gif` the set is `gif` and the seven extras. -/
theorem resolve_macpaint_reads_past_bundle :
    findExtensions sUtiExtensions (literal "com.apple.macpaint-image") =
      (true, some (literal "mac\x00ptng\x00pnt")) ∧
    UtiExtensions.appendExtensionsLoop 4 [] (literal "mac\x00ptng\x00pnt") = Run.outOfBounds ∧
    UtiExtensions.new [CFString.direct "com.apple.macpaint-image"] = Run.outOfBounds ∧
    UtiExtensions.new [CFString.direct "com.compuserve.gif"] =
      Run.done
        { mStorage := [some "cur", some "epi", some "eps", some "epsf", some "epsi",
            some "gif", some "ps", some "xbm", none],
          mStrings := ["cur", "epi", "eps", "epsf", "epsi", "gif", "ps", "xbm"],
          stderr := [] } := by
  decide

/-! ## The life of a reader -/

namespace CoreGraphicsInput

theorem close_fields (self : CoreGraphicsInput) :
    self.close.1 = true ∧ self.close.2.m_data = none ∧ self.close.2.m_image = none ∧
    self.close.2.m_source = none ∧ self.close.2.m_subimage = self.m_subimage ∧
    self.close.2.m_spec = self.m_spec ∧
    self.close.2.log = self.log ++ closeReleases self := by
  refine ⟨rfl, rfl, rfl, rfl, rfl, rfl, ?_⟩
  simp only [close, reset_source, reset_image, reset_data, releaseIf, closeReleases]
  cases self.m_data <;> cases self.m_image <;> cases self.m_source <;> simp

/-- C13, counterexample: the reader opened on the two-page example is moved to
page 1 and closed. `close` releases the three references but leaves
`m_subimage` alone: `current_subimage` still answers 1, the index of the last
decoded page, not `-1`. -/
theorem close_keeps_cursor :
    (seek_subimage opened 1 0 ImageSpec.empty).ok = true ∧
    (seek_subimage opened 1 0 ImageSpec.empty).self.current_subimage = 1 ∧
    (close (seek_subimage opened 1 0 ImageSpec.empty).self).2.m_source = none ∧
    (close (seek_subimage opened 1 0 ImageSpec.empty).self).2.current_subimage = 1 ∧
    (close (seek_subimage opened 1 0 ImageSpec.empty).self).2.current_subimage ≠ -1 ∧
    (seek_subimage (close (seek_subimage opened 1 0 ImageSpec.empty).self).2 1 0
      ImageSpec.empty).ok = true := by
  decide

/-- C13, amended: `close` leaves the page cursor as it was: on every reader
`current_subimage` answers after `close` what it answered before. The value
`-1` is installed by `open_` alone: when the probe of the file succeeds,
`open_` is the seek to page 0 from the probed reader with cursor `-1`. -/
theorem close_leaves_cursor (fs : Files) (self : CoreGraphicsInput) (name : String)
    (spec : ImageSpec) :
    self.close.2.current_subimage = self.current_subimage ∧
    ((self.valid_file fs name).1 = true →
      self.open_ fs name spec =
        seek_subimage { (self.valid_file fs name).2 with m_subimage := -1 } 0 0 spec) := by
  refine ⟨rfl, fun hv => ?_⟩
  unfold open_
  simp only [hv, Bool.not_true, Bool.false_eq_true, ↓reduceIte]

end CoreGraphicsInput

/-! ## What a reader holds -/

namespace CoreGraphicsInput

theorem valid_file_image (fs : Files) (self : CoreGraphicsInput) (name : String) :
    fs.url name = true → (self.valid_file fs name).2.m_image = none := by
  intro h
  simp [valid_file, h, close, reset_source, reset_image, reset_data]

/-- Seeking keeps the rule that a page is held only together with a container. -/
theorem seek_image_needs_source (self : CoreGraphicsInput) (n m : Int) (newspec : ImageSpec)
    (h : self.m_image.isSome = true → self.m_source.isSome = true) :
    (seek_subimage self n m newspec).self.m_image.isSome = true →
      (seek_subimage self n m newspec).self.m_source.isSome = true := by
  rw [(seek_source_cursor self n m newspec).1]
  by_cases hg : n < 0 ∨ m ≠ 0
  · simpa [seek_subimage, hg] using h
  · push_neg at hg
    obtain ⟨h0, rfl⟩ := hg
    by_cases hc : self.m_subimage = n
    · rw [seek_same self n newspec h0 hc]
      exact h
    · rw [seek_other self n newspec h0 hc]
      have hinv : (self.invalidateIfBefore n).m_image.isSome = true →
          self.m_source.isSome = true := by
        unfold invalidateIfBefore
        split
        · intro hi
          simp [reset_image, reset_data] at hi
        · exact h
      split
      · exact hinv
      · rename_i hcount
        intro _
        cases hs : self.m_source with
        | none => simp [hs, CGImageSourceGetCount] at hcount
        | some src => rfl

theorem read_fields (ndebug : Bool) (self : CoreGraphicsInput) (ybegin yend z : Int) :
    (read_native_scanlines ndebug self ybegin yend z).2.m_source = self.m_source ∧
    (read_native_scanlines ndebug self ybegin yend z).2.m_image = self.m_image ∧
    (read_native_scanlines ndebug self ybegin yend z).2.m_subimage = self.m_subimage ∧
    (read_native_scanlines ndebug self ybegin yend z).2.m_spec = self.m_spec := by
  have hf := fetchData_fields self
  unfold read_native_scanlines
  simp only []
  split
  · exact ⟨hf.2.2.1, hf.1, hf.2.2.2, hf.2.1⟩
  · split
    · exact ⟨hf.2.2.1, hf.1, hf.2.2.2, hf.2.1⟩
    · split
      · exact ⟨hf.2.2.1, hf.1, hf.2.2.2, hf.2.1⟩
      · split
        · exact ⟨hf.2.2.1, hf.1, hf.2.2.2, hf.2.1⟩
        · exact ⟨hf.2.2.1, hf.1, hf.2.2.2, hf.2.1⟩

/-- In every state a reader can be in, a decoded page is held only together
with a container. -/
theorem reachable_image_needs_source (fs : Files) (ndebug : Bool) (self : CoreGraphicsInput)
    (h : Reachable fs ndebug self) :
    self.m_image.isSome = true → self.m_source.isSome = true := by
  induction h with
  | fresh => intro hi; simp [new] at hi
  | valid_file s name _ ih =>
    by_cases hu : fs.url name = true
    · rw [valid_file_image fs s name hu]
      intro hi; simp at hi
    · simp only [valid_file, hu]
      exact ih
  | open_ s name spec _ ih =>
    unfold open_
    by_cases hu : fs.url name = true
    · have hvi := valid_file_image fs s name hu
      simp only []
      by_cases hv : (!(s.valid_file fs name).1) = true
      · rw [if_pos hv]
        simp only [hvi]
        intro hi; simp at hi
      · rw [if_neg hv]
        apply seek_image_needs_source
        simp only [hvi]
        intro hi; simp at hi
    · have hv : (s.valid_file fs name) = (false, s) := by simp [valid_file, hu]
      simp only [hv]
      exact ih
  | seek s n m spec _ ih => exact seek_image_needs_source s n m spec ih
  | read s yb ye z _ ih =>
    have hr := read_fields ndebug s yb ye z
    rw [hr.1, hr.2.1]
    exact ih
  | close s _ _ =>
    rw [(close_fields s).2.2.1]
    intro hi; simp at hi

/-- C14, at a failing input: the reader is opened on a container whose page 1
does not decode, row 0 is read (the buffer of page 0 is now held) and page 1
is sought. The forward seek keeps the buffer and assigns the null page before
it fails: the reader holds a buffer and a container but no decoded page. -/
theorem forward_seek_null_page_orphans_buffer :
    ∀ ndebug,
      Reachable nullFiles ndebug
        (seek_subimage (readOnNull ndebug) 1 0 ImageSpec.empty).self ∧
      (readOnNull ndebug).m_data = page0.data ∧
      (readOnNull ndebug).m_image = some page0 ∧
      (seek_subimage (readOnNull ndebug) 1 0 ImageSpec.empty).ok = false ∧
      (seek_subimage (readOnNull ndebug) 1 0 ImageSpec.empty).self.m_data = page0.data ∧
      (seek_subimage (readOnNull ndebug) 1 0 ImageSpec.empty).self.m_data.isSome = true ∧
      (seek_subimage (readOnNull ndebug) 1 0 ImageSpec.empty).self.m_image = none ∧
      (seek_subimage (readOnNull ndebug) 1 0 ImageSpec.empty).self.m_source
        = some nullSecond :=
  fun ndebug =>
    ⟨Reachable.seek _ 1 0 _ (Reachable.read _ 0 1 0
        (Reachable.open_ _ "b" _ Reachable.fresh)),
      by revert ndebug; decide⟩

/-- C15: on every reader `close` returns `true`, releases the buffer, the page
and the container, in this order and each exactly when it is held, and leaves
none of them held; a second `close` returns `true`, releases nothing and
leaves the reader as the first left it. -/
theorem close_idempotent (self : CoreGraphicsInput) :
    self.close.1 = true ∧
    self.close.2.log = self.log ++ closeReleases self ∧
    self.close.2.m_data = none ∧ self.close.2.m_image = none ∧
    self.close.2.m_source = none ∧
    self.close.2.close.1 = true ∧
    closeReleases self.close.2 = [] ∧
    self.close.2.close = self.close := by
  have h := close_fields self
  have h2 := close_fields self.close.2
  have hrel : closeReleases self.close.2 = [] := by
    simp [closeReleases, h.2.1, h.2.2.1, h.2.2.2.1]
  refine ⟨rfl, h.2.2.2.2.2.2, rfl, rfl, rfl, rfl, hrel, ?_⟩
  have hlog : self.close.2.close.2.log = self.close.2.log := by
    rw [h2.2.2.2.2.2.2, hrel, List.append_nil]
  have hst : self.close.2.close.2 = self.close.2 := by
    cases hc : self.close.2 with
    | mk src img dat sub sp lg =>
      rw [hc] at hlog
      have h3 := close_fields (CoreGraphicsInput.mk src img dat sub sp lg)
      cases hcc : (CoreGraphicsInput.mk src img dat sub sp lg).close.2 with
      | mk src2 img2 dat2 sub2 sp2 lg2 =>
        rw [hcc] at h3 hlog
        rw [hc] at h
        simp only at h3 hlog h
        obtain ⟨_, hd, hi, hs, hsub, hspec, _⟩ := h3
        obtain ⟨_, hd1, hi1, hs1, _, _, _⟩ := h
        subst hd hi hs hsub hspec hlog hd1 hi1 hs1
        rfl
  exact Prod.ext rfl hst

end CoreGraphicsInput

/-! ## The stride assertion and the alpha index -/

namespace CoreGraphicsInput

/-- With assertions compiled in, a read on a reader whose page reports a stride
other than the one computed from the descriptor is aborted once the buffer is
there. -/
theorem read_rows_mismatch_aborts (self : CoreGraphicsInput) (img : CGImage) (B : List Nat)
    (ybegin yend z : Int) (himg : self.m_image = some img)
    (hB : self.m_data = some B ∨ (self.m_data = none ∧ img.data = some B))
    (hne : img.bytesPerRow ≠ expectedRowbytes self) :
    (read_native_scanlines false self ybegin yend z).1 = ReadOutcome.aborted := by
  have hd := fetchData_data self img B himg hB
  have hi := (fetchData_fields self).1
  have hrow : CGImageGetBytesPerRow (fetchData self).m_image = img.bytesPerRow := by
    rw [hi, himg]; rfl
  unfold read_native_scanlines
  simp only [hd, hrow, expectedRowbytes_fetchData]
  rw [if_pos (by simp [hne])]

/-- C16, at a failing input: the reader sits on a 4x4 page of three 8-bit
channels whose rows are padded to 16 bytes, so the reported stride 16 differs
from the 12 bytes computed from the descriptor. With assertions compiled out
the read of row 0 returns `true` and copies 16 bytes sliced with the reported
stride; with assertions compiled in the process is aborted. In neither build
does the call return `false`. -/
theorem stride_mismatch_not_reported :
    IsOpen onPadded ∧ onPadded.m_image = some paddedPage ∧
    paddedPage.bytesPerRow = 16 ∧ expectedRowbytes onPadded = 12 ∧
    (read_native_scanlines true onPadded 0 1 0).1 = ReadOutcome.copied (List.range 16) ∧
    (read_native_scanlines false onPadded 0 1 0).1 = ReadOutcome.aborted ∧
    (∀ ndebug, (read_native_scanlines ndebug onPadded 0 1 0).1 ≠ ReadOutcome.failed) :=
  ⟨seek_first_isOpen _ ImageSpec.empty rfl (by decide), by decide⟩

/-- For every alpha arrangement but the two with alpha last, the alpha index a
successful seek returns is `-1` or an index below the channel count. -/
theorem seek_alpha_index_in_range (self : CoreGraphicsInput) (src : CGImageSource)
    (img : CGImage) (n : Int) (newspec : ImageSpec)
    (hsrc : self.m_source = some src) (h0 : 0 ≤ n) (hne : n ≠ self.m_subimage)
    (himg : src.pages.get? n.toNat = some (some img))
    (hbits : img.bitsPerComponent = 8 ∨ img.bitsPerComponent = 16 ∨
      img.bitsPerComponent = 32)
    (hlast : img.alphaInfo ≠ CGImageAlphaInfo.kCGImageAlphaLast ∧
      img.alphaInfo ≠ CGImageAlphaInfo.kCGImageAlphaPremultipliedLast) :
    (seek_subimage self n 0 newspec).newspec.alpha_channel = -1 ∨
    (0 ≤ (seek_subimage self n 0 newspec).newspec.alpha_channel ∧
      (seek_subimage self n 0 newspec).newspec.alpha_channel <
        (seek_subimage self n 0 newspec).newspec.nchannels) := by
  have h := seek_page self src img n newspec hsrc h0 hne himg hbits
  rw [h.2.2.2.2.2.2.1, h.2.2.2.2.2.2.2.1]
  obtain ⟨h1, h2⟩ := hlast
  cases ha : img.alphaInfo <;> simp [specAlphaIndex, specChannelCount] <;> simp_all

/-- C20, at a failing input: page 1 of the two-page example has alpha last. The
seek to it succeeds and returns 4 channels with alpha index 4, which is
neither `-1` nor an index below the channel count. -/
theorem alpha_last_index_out_of_range :
    opened.m_source = some twoPages ∧
    page1.alphaInfo = CGImageAlphaInfo.kCGImageAlphaLast ∧
    (seek_subimage opened 1 0 ImageSpec.empty).ok = true ∧
    (seek_subimage opened 1 0 ImageSpec.empty).newspec.nchannels = 4 ∧
    (seek_subimage opened 1 0 ImageSpec.empty).newspec.alpha_channel = 4 ∧
    ¬ ((seek_subimage opened 1 0 ImageSpec.empty).newspec.alpha_channel = -1 ∨
      (0 ≤ (seek_subimage opened 1 0 ImageSpec.empty).newspec.alpha_channel ∧
        (seek_subimage opened 1 0 ImageSpec.empty).newspec.alpha_channel <
          (seek_subimage opened 1 0 ImageSpec.empty).newspec.nchannels)) := by
  decide

end CoreGraphicsInput

/-! ## The lookup on the static table -/

theorem table_keys_unique :
    ∀ e1 ∈ sUtiExtensions, ∀ e2 ∈ sUtiExtensions, e1.uti = e2.uti → e1 = e2 := by
  decide

/-- What `findExtensions` does on the static table, for every queried pointer. -/
theorem findExtensions_table (val : List Char) :
    ((findExtensions sUtiExtensions val).1 = true ↔
      ∃ e ∈ sUtiExtensions, e.uti.toList = cstr val) ∧
    (∀ e ∈ sUtiExtensions, e.uti.toList = cstr val →
      findExtensions sUtiExtensions val = (true, e.extensions.map literal) ∧
      ∀ e2 ∈ sUtiExtensions, e2.uti.toList = cstr val → e2 = e) ∧
    ((findExtensions sUtiExtensions val).1 = false →
      (findExtensions sUtiExtensions val).2 = some val) := by
  have hkey : ∀ e ∈ sUtiExtensions, cstr (literal e.uti) = e.uti.toList :=
    fun e he => cstr_literal e.uti (table_keys_without_nul e he)
  have hhit : ∀ e ∈ sUtiExtensions, e.uti.toList = cstr val →
      findExtensions sUtiExtensions val = (true, e.extensions.map literal) := by
    intro e he hk
    exact findExtensions_hit sUtiExtensions val sUtiExtensions_sorted e he
      (by rw [hkey e he, hk])
  by_cases hex : ∃ e ∈ sUtiExtensions, e.uti.toList = cstr val
  · obtain ⟨e, he, hk⟩ := hex
    refine ⟨⟨fun _ => ⟨e, he, hk⟩, fun _ => by rw [hhit e he hk]⟩, ?_, ?_⟩
    · intro e1 he1 hk1
      refine ⟨hhit e1 he1 hk1, fun e2 he2 hk2 => ?_⟩
      exact table_keys_unique e2 he2 e1 he1 (String.ext (hk2.trans hk1.symm))
    · intro hf
      rw [hhit e he hk] at hf
      exact Bool.noConfusion hf
  · have hmiss := findExtensions_miss sUtiExtensions val sUtiExtensions_sorted
      (fun e he hk => hex ⟨e, he, by rw [← hkey e he, hk]⟩)
    refine ⟨⟨fun h => ?_, fun h => absurd h hex⟩, ?_, ?_⟩
    · rw [hmiss] at h
      exact Bool.noConfusion h
    · intro e he hk
      exact absurd ⟨e, he, hk⟩ hex
    · intro _
      rw [hmiss]

/-- C17: the table has 49 entries, its identifiers increase strictly under
`strcmp`, and for every queried pointer `val`: `findExtensions` reports a hit
exactly when some entry has the C string of `val` as identifier; on a hit it
yields the bundle of that entry, which is the only one with this identifier;
on a miss `*val` is still the queried pointer. The same for an identifier given
as a string without `NUL`. -/
theorem findExtensions_correct :
    sUtiExtensions.length = 49 ∧ Sorted sUtiExtensions ∧
    (∀ val : List Char,
      ((findExtensions sUtiExtensions val).1 = true ↔
        ∃ e ∈ sUtiExtensions, e.uti.toList = cstr val) ∧
      (∀ e ∈ sUtiExtensions, e.uti.toList = cstr val →
        findExtensions sUtiExtensions val = (true, e.extensions.map literal) ∧
        ∀ e2 ∈ sUtiExtensions, e2.uti.toList = cstr val → e2 = e) ∧
      ((findExtensions sUtiExtensions val).1 = false →
        (findExtensions sUtiExtensions val).2 = some val)) ∧
    (∀ s : String, NUL ∉ s.toList →
      ((findExtensions sUtiExtensions (literal s)).1 = true ↔
        ∃ e ∈ sUtiExtensions, e.uti = s)) := by
  refine ⟨by decide, sUtiExtensions_sorted, findExtensions_table, ?_⟩
  intro s hs
  rw [(findExtensions_table (literal s)).1, cstr_literal s hs]
  constructor
  · rintro ⟨e, he, hk⟩
    exact ⟨e, he, String.ext hk⟩
  · rintro ⟨e, he, hk⟩
    exact ⟨e, he, by rw [hk]⟩

/-! ## Identifiers that are copied, and the bundle without an end -/

/-- C18, at a failing input: the runtime list holds `com.compuserve.gif`, a key
of the table with bundle `gif`, as a native string without a direct pointer
whose copy to ASCII succeeds. The constructor takes the success of the copy
for the reason to skip: it writes `Ignoring UTI: ` and never looks the
identifier up, and `gif` is not in the resolved set. -/
theorem converted_identifier_is_skipped :
    (⟨"com.compuserve.gif", some "gif\x00"⟩ : UtiExtension) ∈ sUtiExtensions ∧
    (CFString.converted "com.compuserve.gif").cStringPtr = none ∧
    (CFString.converted "com.compuserve.gif").getCString = true ∧
    UtiExtensions.new [CFString.converted "com.compuserve.gif"] =
      Run.done
        { mStorage := [some "cur", some "epi", some "eps", some "epsf", some "epsi",
            some "ps", some "xbm", none],
          mStrings := ["cur", "epi", "eps", "epsf", "epsi", "ps", "xbm"],
          stderr := ["Ignoring UTI: "] } ∧
    UtiExtensions.resolve [CFString.direct "com.compuserve.gif"] =
      Run.done [some "cur", some "epi", some "eps", some "epsf", some "epsi",
        some "gif", some "ps", some "xbm", none] := by
  decide

theorem encodeOpen_cons (s : String) (rest : List String) :
    encodeOpen (s :: rest) = s.toList ++ NUL :: encodeOpen rest := by
  simp [encodeOpen]

/-- On an array that lists proper extensions without an empty string at its
end, the loop of `appendExtensions` reads past the end of the array. -/
theorem appendExtensionsLoop_encodeOpen (exts : List String) (hp : ∀ s ∈ exts, ProperExt s)
    (mStrings : List String) (fuel : Nat) (hfuel : exts.length < fuel) :
    UtiExtensions.appendExtensionsLoop fuel mStrings (encodeOpen exts) = Run.outOfBounds := by
  induction exts generalizing mStrings fuel with
  | nil =>
    cases fuel with
    | zero => simp at hfuel
    | succ fuel => simp [UtiExtensions.appendExtensionsLoop, encodeOpen]
  | cons s rest ih =>
    cases fuel with
    | zero => simp at hfuel
    | succ fuel =>
      obtain ⟨hne, hnul⟩ := hp s (by simp)
      rw [encodeOpen_cons]
      cases hs : s.toList with
      | nil => exact absurd hs hne
      | cons c cs =>
        have hc : c ≠ NUL := fun e => hnul (by rw [hs, e]; simp)
        have hcstr : cstr (c :: cs ++ NUL :: encodeOpen rest) = s.toList := by
          rw [← hs]; exact cstr_append_nul s.toList (encodeOpen rest) hnul
        have hmk : String.mk s.toList = s := rfl
        have hlen : s.length = s.toList.length := rfl
        have hdrop : (c :: cs ++ NUL :: encodeOpen rest).drop (s.toList.length + 1)
            = encodeOpen rest := by
          rw [← hs]
          have : s.toList ++ NUL :: encodeOpen rest
              = (s.toList ++ [NUL]) ++ encodeOpen rest := by simp
          rw [this]
          exact List.drop_left' (by simp)
        simp only [UtiExtensions.appendExtensionsLoop, List.cons_append]
        rw [if_neg hc, if_neg (by simp)]
        simp only [← List.cons_append, hcstr, hmk, hlen, hdrop]
        exact ih (fun t ht => hp t (by simp [ht])) (setInsert s mStrings) fuel
          (by simp at hfuel; omega)

/-- Whatever the set holds, `appendExtensions` on the bundle of
`com.apple.macpaint-image` reads past the end of the literal. -/
theorem appendExtensions_macpaint (self : UtiExtensions) :
    self.appendExtensions (literal "mac\x00ptng\x00pnt") = Run.outOfBounds := by
  have hlit : literal "mac\x00ptng\x00pnt" = encodeOpen ["mac", "ptng", "pnt"] := by decide
  have hp : ∀ s ∈ ["mac", "ptng", "pnt"], ProperExt s := by decide
  unfold UtiExtensions.appendExtensions
  rw [hlit, appendExtensionsLoop_encodeOpen _ hp self.mStrings _ (by decide)]

/-- C19, at a failing input: the bundle of `com.apple.macpaint-image` is the
literal `"mac\0ptng\0pnt"`, whose array ends with the terminator of `pnt` and
has no empty string after it. On it `appendExtensions`, whatever the set
holds, goes on after `pnt` and reads the character past the end of the array.
Every other bundle of the table and both fixed bundles end with an empty
string, and on them `appendExtensions` stops there, having inserted exactly
the listed extensions. -/
theorem macpaint_bundle_read_past_end :
    (⟨"com.apple.macpaint-image", some "mac\x00ptng\x00pnt"⟩ : UtiExtension)
      ∈ sUtiExtensions ∧
    literal "mac\x00ptng\x00pnt" = encodeOpen ["mac", "ptng", "pnt"] ∧
    ¬ Terminated "mac\x00ptng\x00pnt" ∧
    (∀ self : UtiExtensions,
      self.appendExtensions (literal "mac\x00ptng\x00pnt") = Run.outOfBounds) ∧
    (∀ e ∈ sUtiExtensions, e.uti ≠ "com.apple.macpaint-image" →
      ∀ b, e.extensions = some b → ∀ self : UtiExtensions,
        self.appendExtensions (literal b) =
          Run.done { self with
            mStrings := (listed b).foldl (fun m s => setInsert s m) self.mStrings }) ∧
    Terminated "eps\x00epi\x00epsf\x00epsi\x00ps\x00" ∧ Terminated "xbm\x00cur\x00" :=
  ⟨by decide, by decide, by decide, appendExtensions_macpaint,
    fun e he hne b hb self =>
      appendExtensions_terminated self b (table_bundles_terminated e he hne b hb),
    by decide, by decide⟩

/-! ## The set stays a set -/

theorem stringLt_irrefl (x : String) : stringLt x x = false := by
  simp [stringLt, strcmpChars_self]

theorem stringLt_trans (x y z : String) (hxy : stringLt x y = true)
    (hyz : stringLt y z = true) : stringLt x z = true := by
  simp only [stringLt, decide_eq_true_eq] at hxy hyz ⊢
  exact strcmpChars_trans _ _ _ hxy hyz

/-- An insertion keeps the elements in strictly increasing order. -/
theorem setInsert_increasing (x : String) (m : List String) (h : Increasing m) :
    Increasing (setInsert x m) := by
  induction m with
  | nil => simp [setInsert, Increasing]
  | cons y ys ih =>
    unfold Increasing at h ih ⊢
    rw [List.pairwise_cons] at h
    simp only [setInsert]
    split
    · rename_i hxy
      rw [List.pairwise_cons]
      refine ⟨?_, List.pairwise_cons.mpr h⟩
      intro z hz
      rcases List.mem_cons.mp hz with hzy | hzy
      · rw [hzy]; exact hxy
      · exact stringLt_trans x y z hxy (h.1 z hzy)
    · split
      · rename_i hyx
        rw [List.pairwise_cons]
        refine ⟨?_, ih h.2⟩
        intro z hz
        rcases (mem_setInsert z x ys).mp hz with hzx | hzy
        · rw [hzx]; exact hyx
        · exact h.1 z hzy
      · exact List.pairwise_cons.mpr h

theorem Increasing.nodup (m : List String) (h : Increasing m) : m.Nodup := by
  unfold Increasing at h
  refine List.Pairwise.imp ?_ h
  intro a b hab heq
  rw [heq, stringLt_irrefl] at hab
  exact Bool.noConfusion hab

/-- Whenever the loop of `appendExtensions` ends, the set it leaves is still
increasing and holds what it held. -/
theorem appendExtensionsLoop_done (fuel : Nat) (m : List String) (extList : List Char)
    (r : List String) (h : UtiExtensions.appendExtensionsLoop fuel m extList = Run.done r) :
    (Increasing m → Increasing r) ∧ ∀ x ∈ m, x ∈ r := by
  induction fuel generalizing m extList with
  | zero => simp [UtiExtensions.appendExtensionsLoop] at h
  | succ fuel ih =>
    cases extList with
    | nil => simp [UtiExtensions.appendExtensionsLoop] at h
    | cons c cs =>
      simp only [UtiExtensions.appendExtensionsLoop] at h
      split at h
      · rw [Run.done.injEq] at h
        subst h
        exact ⟨id, fun x hx => hx⟩
      · split at h
        · exact Run.noConfusion h
        · have := ih _ _ h
          exact ⟨fun hm => this.1 (setInsert_increasing _ m hm),
            fun x hx => this.2 x ((mem_setInsert x _ m).mpr (Or.inr hx))⟩

theorem appendExtensions_done (self r : UtiExtensions) (extList : List Char)
    (h : self.appendExtensions extList = Run.done r) :
    r.mStorage = self.mStorage ∧ (Increasing self.mStrings → Increasing r.mStrings) ∧
    ∀ x ∈ self.mStrings, x ∈ r.mStrings := by
  unfold UtiExtensions.appendExtensions at h
  split at h
  · rename_i m hm
    rw [Run.done.injEq] at h
    subst h
    exact ⟨rfl, appendExtensionsLoop_done _ _ _ m hm⟩
  · exact Run.noConfusion h
  · exact Run.noConfusion h

theorem addUti_done (self r : UtiExtensions) (uti : CFString)
    (h : self.addUti uti = Run.done r) :
    r.mStorage = self.mStorage ∧ (Increasing self.mStrings → Increasing r.mStrings) ∧
    ∀ x ∈ self.mStrings, x ∈ r.mStrings := by
  unfold UtiExtensions.addUti at h
  simp only [] at h
  split at h
  · rw [Run.done.injEq] at h
    subst h
    exact ⟨rfl, id, fun x hx => hx⟩
  · split at h
    · exact appendExtensions_done self r _ h
    · rw [Run.done.injEq] at h
      subst h
      exact ⟨rfl, id, fun x hx => hx⟩
    · rw [Run.done.injEq] at h
      subst h
      exact ⟨rfl, id, fun x hx => hx⟩

theorem addUtis_done (arrayRef : List CFString) (self r : UtiExtensions)
    (h : self.addUtis arrayRef = Run.done r) :
    r.mStorage = self.mStorage ∧ (Increasing self.mStrings → Increasing r.mStrings) ∧
    ∀ x ∈ self.mStrings, x ∈ r.mStrings := by
  induction arrayRef generalizing self with
  | nil =>
    simp only [UtiExtensions.addUtis, Run.done.injEq] at h
    subst h
    exact ⟨rfl, id, fun x hx => hx⟩
  | cons uti rest ih =>
    simp only [UtiExtensions.addUtis] at h
    split at h
    · rename_i s1 hs1
      have h1 := addUti_done self s1 uti hs1
      have h2 := ih s1 h
      exact ⟨h2.1.trans h1.1, fun hm => h2.2.1 (h1.2.1 hm),
        fun x hx => h2.2.2 x (h1.2.2 x hx)⟩
    · exact Run.noConfusion h
    · exact Run.noConfusion h

/-- Whenever the constructor yields its object, for whatever identifier list:
the sequence is the set followed by the null pointer, which so stands last and
nowhere else; no string is in it twice; and the seven fixed extras are in it. -/
theorem new_done_wellformed (arrayRef : List CFString) (r : UtiExtensions)
    (h : UtiExtensions.new arrayRef = Run.done r) :
    r.mStorage = r.mStrings.map some ++ [none] ∧ r.mStrings.Nodup ∧
    r.mStorage.Nodup ∧ ∀ x ∈ fixedExtras, some x ∈ r.mStorage := by
  have hT1 : Terminated "eps\x00epi\x00epsf\x00epsi\x00ps\x00" := by decide
  have hT2 : Terminated "xbm\x00cur\x00" := by decide
  have hl1 : listed "eps\x00epi\x00epsf\x00epsi\x00ps\x00" =
      ["eps", "epi", "epsf", "epsi", "ps"] := by decide
  have hl2 : listed "xbm\x00cur\x00" = ["xbm", "cur"] := by decide
  unfold UtiExtensions.new at h
  split at h
  · rename_i s1 hs1
    have h1 := addUtis_done arrayRef _ s1 hs1
    simp only [appendExtensions_terminated _ _ hT1, appendExtensions_terminated _ _ hT2,
      Run.done.injEq] at h
    subst h
    have hinc : Increasing s1.mStrings := h1.2.1 (by simp [Increasing])
    have hst : s1.mStorage = [] := h1.1
    set m := List.foldl (fun m s => setInsert s m)
      (List.foldl (fun m s => setInsert s m) s1.mStrings
        (listed "eps\x00epi\x00epsf\x00epsi\x00ps\x00")) (listed "xbm\x00cur\x00") with hm
    have hminc : Increasing m := by
      have hfold : ∀ (exts m0 : List String), Increasing m0 →
          Increasing (exts.foldl (fun m s => setInsert s m) m0) := by
        intro exts
        induction exts with
        | nil => intro m0 h0; exact h0
        | cons s rest ih => intro m0 h0; exact ih _ (setInsert_increasing s m0 h0)
      exact hfold _ _ (hfold _ _ hinc)
    have hnd := Increasing.nodup m hminc
    have hsto : (List.map some m ++ [none] : List (Option String)).Nodup := by
      rw [List.nodup_append]
      refine ⟨(List.nodup_map_iff (Option.some_injective _)).mpr hnd, by simp, ?_⟩
      intro a ha hb
      simp at hb
      subst hb
      simp at ha
    have hmem : ∀ x ∈ fixedExtras, x ∈ m := by
      intro x hx
      rw [hm, mem_foldl_setInsert, mem_foldl_setInsert, hl1, hl2]
      simp only [fixedExtras, List.mem_cons, List.mem_singleton, List.not_mem_nil,
        or_false] at hx ⊢
      tauto
    refine ⟨?_, hnd, ?_, ?_⟩
    · simp only [UtiExtensions.finish, hst, List.nil_append]
    · simp only [UtiExtensions.finish, hst, List.nil_append]
      exact hsto
    · intro x hx
      simp only [UtiExtensions.finish, hst, List.nil_append, List.mem_append, List.mem_map]
      exact Or.inl ⟨x, hmem x hx, rfl⟩
  · exact Run.noConfusion h
  · exact Run.noConfusion h

/-! ## When the constructor reads past a bundle -/

theorem addUti_skipped (self : UtiExtensions) (uti : CFString) (h : uti.cStr = none) :
    self.addUti uti = Run.done { self with stderr := self.stderr ++ ["Ignoring UTI: "] } := by
  unfold CFString.cStr at h
  unfold UtiExtensions.addUti
  simp only [h]

theorem addUti_lookup (self : UtiExtensions) (uti : CFString) (s : String)
    (h : uti.cStr = some s) :
    self.addUti uti =
      match findExtensions sUtiExtensions (literal s) with
      | (true, some exts) => self.appendExtensions exts
      | (true, none) => Run.done self
      | (false, _) =>
        Run.done { self with stderr := self.stderr ++ ["Unkown UTI: '%s'\n"] } := by
  unfold CFString.cStr at h
  unfold UtiExtensions.addUti
  simp only [h]

/-- One round of the constructor reads past a bundle exactly when the string
it looks up is `com.apple.macpaint-image`; in every other case it ends. -/
theorem addUti_outOfBounds_iff (self : UtiExtensions) (uti : CFString) :
    self.addUti uti = Run.outOfBounds ↔
      ∃ s, uti.cStr = some s ∧ cstr (literal s) = "com.apple.macpaint-image".toList := by
  have hmacmem : (⟨"com.apple.macpaint-image", some "mac\x00ptng\x00pnt"⟩ : UtiExtension)
      ∈ sUtiExtensions := by decide
  cases hc : uti.cStr with
  | none =>
    rw [addUti_skipped self uti hc]
    constructor
    · intro h; exact Run.noConfusion h
    · rintro ⟨s, hs, _⟩; exact Option.noConfusion hs
  | some s =>
    rw [addUti_lookup self uti s hc]
    have hC := findExtensions_table (literal s)
    by_cases hex : ∃ e ∈ sUtiExtensions, e.uti.toList = cstr (literal s)
    · obtain ⟨e, he, hk⟩ := hex
      rw [(hC.2.1 e he hk).1]
      by_cases hmac : e.uti = "com.apple.macpaint-image"
      · have heq : e = ⟨"com.apple.macpaint-image", some "mac\x00ptng\x00pnt"⟩ :=
          table_keys_unique e he _ hmacmem hmac
        subst heq
        simp only [Option.map_some']
        rw [appendExtensions_macpaint]
        exact ⟨fun _ => ⟨s, rfl, hk.symm⟩, fun _ => rfl⟩
      · constructor
        · intro h
          exfalso
          cases hb : e.extensions with
          | none => rw [hb] at h; exact Run.noConfusion h
          | some b =>
            rw [hb] at h
            simp only [Option.map_some'] at h
            rw [appendExtensions_terminated self b
              (table_bundles_terminated e he hmac b hb)] at h
            exact Run.noConfusion h
        · rintro ⟨s2, hs2, hk2⟩
          rw [Option.some.inj hs2] at hk
          exact absurd (String.ext (hk.trans hk2)) hmac
    · have hmiss : (findExtensions sUtiExtensions (literal s)).1 = false := by
        cases hf : (findExtensions sUtiExtensions (literal s)).1 with
        | false => rfl
        | true => exact absurd (hC.1.mp hf) hex
      have h2 := hC.2.2 hmiss
      have hfull : findExtensions sUtiExtensions (literal s) = (false, some (literal s)) :=
        Prod.ext hmiss h2
      rw [hfull]
      constructor
      · intro h; exact Run.noConfusion h
      · rintro ⟨s2, hs2, hk2⟩
        rw [Option.some.inj hs2] at hex
        exact absurd ⟨_, hmacmem, hk2.symm⟩ hex

theorem addUtis_outOfBounds_iff (arrayRef : List CFString) (self : UtiExtensions) :
    self.addUtis arrayRef = Run.outOfBounds ↔
      ∃ u ∈ arrayRef, ∃ s, u.cStr = some s ∧
        cstr (literal s) = "com.apple.macpaint-image".toList := by
  induction arrayRef generalizing self with
  | nil => simp [UtiExtensions.addUtis]
  | cons uti rest ih =>
    simp only [UtiExtensions.addUtis, List.mem_cons, exists_eq_or_imp]
    cases h1 : self.addUti uti with
    | done s1 =>
      simp only []
      rw [ih s1]
      have hno := (addUti_outOfBounds_iff self uti).not.mp (by rw [h1]; exact Run.noConfusion)
      constructor
      · intro h; exact Or.inr h
      · rintro (h | h)
        · exact absurd h hno
        · exact h
    | outOfBounds =>
      simp only [true_iff]
      exact Or.inl ((addUti_outOfBounds_iff self uti).mp h1)
    | outOfFuel => exact absurd h1 (addUti_fuel self uti)

/-- The constructor reads past a bundle exactly when one of the strings it
looks up is `com.apple.macpaint-image`; for every other identifier list it
yields its object. -/
theorem new_outOfBounds_iff (arrayRef : List CFString) :
    (UtiExtensions.new arrayRef = Run.outOfBounds ↔
      ∃ u ∈ arrayRef, ∃ s, u.cStr = some s ∧
        cstr (literal s) = "com.apple.macpaint-image".toList) ∧
    ((¬ ∃ u ∈ arrayRef, ∃ s, u.cStr = some s ∧
        cstr (literal s) = "com.apple.macpaint-image".toList) →
      ∃ r, UtiExtensions.new arrayRef = Run.done r) := by
  have hT1 : Terminated "eps\x00epi\x00epsf\x00epsi\x00ps\x00" := by decide
  have hT2 : Terminated "xbm\x00cur\x00" := by decide
  have hiff := addUtis_outOfBounds_iff arrayRef { mStorage := [], mStrings := [], stderr := [] }
  have key : UtiExtensions.new arrayRef = Run.outOfBounds ↔
      ∃ u ∈ arrayRef, ∃ s, u.cStr = some s ∧
        cstr (literal s) = "com.apple.macpaint-image".toList := by
    rw [← hiff]
    unfold UtiExtensions.new
    cases h1 : UtiExtensions.addUtis { mStorage := [], mStrings := [], stderr := [] }
        arrayRef with
    | done s1 =>
      simp only [appendExtensions_terminated _ _ hT1, appendExtensions_terminated _ _ hT2]
      constructor <;> intro h <;> exact Run.noConfusion h
    | outOfBounds => simp
    | outOfFuel => exact absurd h1 (addUtis_fuel arrayRef _)
  refine ⟨key, fun hno => ?_⟩
  cases hn : UtiExtensions.new arrayRef with
  | done r => exact ⟨r, rfl⟩
  | outOfBounds => exact absurd (key.mp hn) hno
  | outOfFuel => exact absurd hn (new_fuel arrayRef)

/-! ## The resolved sequence -/

/-- C11, at a failing input: for the runtime list of the 49 identifiers of the
table, in order, the constructor reaches `com.apple.macpaint-image` and reads
past the end of its bundle, so no sequence is determined. For the empty list,
and for a list with a repeated identifier and bundles that share `dng`, and
`cur` with the extras, the sequence has each string once, the seven extras, and
the null pointer last. -/
theorem resolve_known_types_reads_past_bundle :
    UtiExtensions.resolve (sUtiExtensions.map (fun e => CFString.direct e.uti))
      = Run.outOfBounds ∧
    UtiExtensions.resolve [] =
      Run.done [some "cur", some "epi", some "eps", some "epsf", some "epsi", some "ps",
        some "xbm", none] ∧
    UtiExtensions.resolve [CFString.direct "com.adobe.raw-image",
        CFString.direct "com.leica.raw-image", CFString.direct "com.adobe.raw-image",
        CFString.direct "com.microsoft.cur"] =
      Run.done [some "cur", some "dng", some "epi", some "eps", some "epsf", some "epsi",
        some "ps", some "xbm", none] := by
  decide

theorem SameSets.refl (x : Run UtiExtensions) : SameSets x x := by
  cases x <;> simp [SameSets]

theorem appendExtensions_same (a b : UtiExtensions) (extList : List Char)
    (hs : a.mStorage = b.mStorage) (hm : a.mStrings = b.mStrings) :
    SameSets (a.appendExtensions extList) (b.appendExtensions extList) := by
  unfold UtiExtensions.appendExtensions
  rw [hm]
  cases UtiExtensions.appendExtensionsLoop (extList.length + 1) b.mStrings extList with
  | done m => exact ⟨hs, rfl⟩
  | outOfBounds => trivial
  | outOfFuel => trivial

theorem addUti_same (a b : UtiExtensions) (uti : CFString)
    (hs : a.mStorage = b.mStorage) (hm : a.mStrings = b.mStrings) :
    SameSets (a.addUti uti) (b.addUti uti) := by
  cases hc : uti.cStr with
  | none =>
    rw [addUti_skipped a uti hc, addUti_skipped b uti hc]
    exact ⟨hs, hm⟩
  | some s =>
    rw [addUti_lookup a uti s hc, addUti_lookup b uti s hc]
    split
    · exact appendExtensions_same a b _ hs hm
    · exact ⟨hs, hm⟩
    · exact ⟨hs, hm⟩

theorem addUtis_same (arrayRef : List CFString) (a b : UtiExtensions)
    (hs : a.mStorage = b.mStorage) (hm : a.mStrings = b.mStrings) :
    SameSets (a.addUtis arrayRef) (b.addUtis arrayRef) := by
  induction arrayRef generalizing a b with
  | nil => exact ⟨hs, hm⟩
  | cons uti rest ih =>
    have h := addUti_same a b uti hs hm
    simp only [UtiExtensions.addUtis]
    cases ha : a.addUti uti with
    | done a1 =>
      cases hb : b.addUti uti with
      | done b1 =>
        rw [ha, hb] at h
        exact ih a1 b1 h.1 h.2
      | outOfBounds => rw [ha, hb] at h; exact h.elim
      | outOfFuel => rw [ha, hb] at h; exact h.elim
    | outOfBounds =>
      cases hb : b.addUti uti with
      | done b1 => rw [ha, hb] at h; exact h.elim
      | outOfBounds => trivial
      | outOfFuel => rw [ha, hb] at h; exact h.elim
    | outOfFuel =>
      cases hb : b.addUti uti with
      | done b1 => rw [ha, hb] at h; exact h.elim
      | outOfBounds => rw [ha, hb] at h; exact h.elim
      | outOfFuel => trivial

theorem addUtis_append (xs zs : List CFString) (self : UtiExtensions) :
    self.addUtis (xs ++ zs) =
      match self.addUtis xs with
      | Run.done s => s.addUtis zs
      | Run.outOfBounds => Run.outOfBounds
      | Run.outOfFuel => Run.outOfFuel := by
  induction xs generalizing self with
  | nil => rfl
  | cons x rest ih =>
    simp only [List.cons_append, UtiExtensions.addUtis]
    cases self.addUti x with
    | done s1 => exact ih s1
    | outOfBounds => rfl
    | outOfFuel => rfl

/-- Identifier lists whose loops end the same way resolve to the same sequence. -/
theorem resolve_same (xs ys : List CFString)
    (h : SameSets
      (UtiExtensions.addUtis { mStorage := [], mStrings := [], stderr := [] } xs)
      (UtiExtensions.addUtis { mStorage := [], mStrings := [], stderr := [] } ys)) :
    UtiExtensions.resolve xs = UtiExtensions.resolve ys := by
  have hT1 : Terminated "eps\x00epi\x00epsf\x00epsi\x00ps\x00" := by decide
  have hT2 : Terminated "xbm\x00cur\x00" := by decide
  unfold UtiExtensions.resolve UtiExtensions.new
  cases hx : UtiExtensions.addUtis { mStorage := [], mStrings := [], stderr := [] } xs with
  | done a =>
    cases hy : UtiExtensions.addUtis { mStorage := [], mStrings := [], stderr := [] } ys with
    | done b =>
      rw [hx, hy] at h
      simp only [appendExtensions_terminated _ _ hT1, appendExtensions_terminated _ _ hT2,
        Run.storage, UtiExtensions.finish, h.1, h.2]
    | outOfBounds => rw [hx, hy] at h; exact h.elim
    | outOfFuel => rw [hx, hy] at h; exact h.elim
  | outOfBounds =>
    cases hy : UtiExtensions.addUtis { mStorage := [], mStrings := [], stderr := [] } ys with
    | done b => rw [hx, hy] at h; exact h.elim
    | outOfBounds => rfl
    | outOfFuel => rw [hx, hy] at h; exact h.elim
  | outOfFuel =>
    cases hy : UtiExtensions.addUtis { mStorage := [], mStrings := [], stderr := [] } ys with
    | done b => rw [hx, hy] at h; exact h.elim
    | outOfBounds => rw [hx, hy] at h; exact h.elim
    | outOfFuel => rfl

/-- The round of the constructor for an identifier that is no key of the
table, or whose entry has a null bundle, ends and leaves set and sequence. -/
theorem addUti_inert (self : UtiExtensions) (u : CFString)
    (hu : ∀ s, u.cStr = some s → ∀ e ∈ sUtiExtensions,
      e.uti.toList = cstr (literal s) → e.extensions = none) :
    ∃ r, self.addUti u = Run.done r ∧ r.mStorage = self.mStorage ∧
      r.mStrings = self.mStrings := by
  cases hc : u.cStr with
  | none =>
    rw [addUti_skipped self u hc]
    exact ⟨_, rfl, rfl, rfl⟩
  | some s =>
    rw [addUti_lookup self u s hc]
    have hC := findExtensions_table (literal s)
    by_cases hex : ∃ e ∈ sUtiExtensions, e.uti.toList = cstr (literal s)
    · obtain ⟨e, he, hk⟩ := hex
      rw [(hC.2.1 e he hk).1, hu s hc e he hk]
      exact ⟨self, rfl, rfl, rfl⟩
    · have hmiss : (findExtensions sUtiExtensions (literal s)).1 = false := by
        cases hf : (findExtensions sUtiExtensions (literal s)).1 with
        | false => rfl
        | true => exact absurd (hC.1.mp hf) hex
      have hfull : findExtensions sUtiExtensions (literal s) = (false, some (literal s)) :=
        Prod.ext hmiss (hC.2.2 hmiss)
      rw [hfull]
      exact ⟨_, rfl, rfl, rfl⟩

/-- C12: let `u` be a native string for which the string the constructor looks
up, if it looks one up, is no identifier of the table or is one whose entry has
a null bundle. Then the round for `u` ends without a fault and leaves the set
as it was, and for all identifier lists `xs` and `ys` the list
`xs ++ [u] ++ ys` resolves to the same sequence as `xs ++ ys`. -/
theorem unknown_identifier_contributes_nothing (xs ys : List CFString) (u : CFString)
    (hu : ∀ s, u.cStr = some s → ∀ e ∈ sUtiExtensions,
      e.uti.toList = cstr (literal s) → e.extensions = none) :
    (∀ self : UtiExtensions, ∃ r, self.addUti u = Run.done r ∧
      r.mStorage = self.mStorage ∧ r.mStrings = self.mStrings) ∧
    UtiExtensions.resolve (xs ++ [u] ++ ys) = UtiExtensions.resolve (xs ++ ys) := by
  refine ⟨fun self => addUti_inert self u hu, ?_⟩
  apply resolve_same
  rw [List.append_assoc, addUtis_append, addUtis_append]
  cases hx : UtiExtensions.addUtis { mStorage := [], mStrings := [], stderr := [] } xs with
  | done s1 =>
    simp only [List.singleton_append, UtiExtensions.addUtis]
    obtain ⟨r, hr, hst, hm⟩ := addUti_inert s1 u hu
    rw [hr]
    exact addUtis_same ys r s1 hst hm
  | outOfBounds => trivial
  | outOfFuel => trivial

/-- C12, witness: between `com.compuserve.gif` and `public.png`, the identifier
`com.canon.tif-raw-image`, whose entry has a null bundle, and an identifier
that is no key change nothing in the sequence, which is that of the two. -/
theorem unknown_identifier_contributes_nothing_witness :
    UtiExtensions.resolve ([CFString.direct "com.compuserve.gif"] ++
        [CFString.direct "com.canon.tif-raw-image"] ++ [CFString.direct "public.png"]) =
      UtiExtensions.resolve ([CFString.direct "com.compuserve.gif"] ++
        [CFString.direct "public.png"]) ∧
    UtiExtensions.resolve ([CFString.direct "com.compuserve.gif"] ++
        [CFString.direct "org.example.unknown"] ++ [CFString.direct "public.png"]) =
      UtiExtensions.resolve ([CFString.direct "com.compuserve.gif"] ++
        [CFString.direct "public.png"]) ∧
    UtiExtensions.resolve ([CFString.direct "com.compuserve.gif"] ++
        [CFString.direct "public.png"]) =
      Run.done [some "cur", some "epi", some "eps", some "epsf", some "epsi", some "gif",
        some "png", some "ps", some "xbm", none] :=
  ⟨(unknown_identifier_contributes_nothing [CFString.direct "com.compuserve.gif"]
      [CFString.direct "public.png"] (CFString.direct "com.canon.tif-raw-image")
      (by
        intro s hs
        have hs2 : s = "com.canon.tif-raw-image" := (Option.some.inj hs).symm
        subst hs2
        decide)).2,
    (unknown_identifier_contributes_nothing [CFString.direct "com.compuserve.gif"]
      [CFString.direct "public.png"] (CFString.direct "org.example.unknown")
      (by
        intro s hs
        have hs2 : s = "org.example.unknown" := (Option.some.inj hs).symm
        subst hs2
        decide)).2,
    by decide⟩

end CoreGraphics
